import Mathlib

/-!
Verification of the schema-extractor core (snapshot normalizer, interface
mapper, archive scanner, snapshot diff engine) against its natural-language
specification.  The definitions below are a shallow embedding of the
TypeScript sources `backend/src/extract.ts`, `backend/src/scan.ts`,
`backend/src/snapshotDiff.ts` and the data model of `backend/src/types.ts`.
JavaScript `Map` values over string keys are modelled as association lists
with JS insertion-order semantics (`set` updates in place, `delete` removes
the entry, iteration follows insertion order).
-/

set_option maxHeartbeats 1000000

namespace SchemaExtractor

/-- Model of a JavaScript `Map<string, α>`: an association list whose key
order is insertion order and whose keys are unique when built via `jsSet`. -/
abbrev JsMap (α : Type) := List (String × α)

/-- `Map.prototype.set`: update the value in place if the key is present
(keeping its position), otherwise append the new entry at the end. -/
def jsSet (k : String) (v : α) : JsMap α → JsMap α
  | [] => [(k, v)]
  | (k', v') :: rest => if k' = k then (k, v) :: rest else (k', v') :: jsSet k v rest

/-- `Map.prototype.get`: the value at the first entry with the given key. -/
def jsGet (k : String) : JsMap α → Option α
  | [] => none
  | (k', v) :: rest => if k' = k then some v else jsGet k rest

/-- `Map.prototype.has`. -/
def jsHas (k : String) (m : JsMap α) : Bool := (jsGet k m).isSome

/-- `Map.prototype.keys` (in iteration order). -/
def jsKeys (m : JsMap α) : List String := m.map (·.1)

/-- `Map.prototype.delete`: remove the (first) entry with the given key. -/
def jsDelete (k : String) : JsMap α → JsMap α
  | [] => []
  | (k', v) :: rest => if k' = k then rest else (k', v) :: jsDelete k rest

/-- Update the value stored at a key, leaving the map unchanged when the key
is absent.  Models the JS idiom `const t = m.get(k); if (!t) continue;`
followed by in-place mutation of the retrieved object. -/
def jsUpdate (k : String) (f : α → α) : JsMap α → JsMap α
  | [] => []
  | (k', v) :: rest => if k' = k then (k', f v) :: rest else (k', v) :: jsUpdate k f rest

/-- `new Map(xs.map(x => [key(x), x]))`: later entries with an equal key
overwrite earlier ones. -/
def jsOfList (key : α → String) (xs : List α) : JsMap α :=
  xs.foldl (fun m x => jsSet (key x) x m) []

theorem jsGet_jsSet (k k' : String) (v : α) (m : JsMap α) :
    jsGet k (jsSet k' v m) = if k' = k then some v else jsGet k m := by
  induction m with
  | nil => simp [jsSet, jsGet]
  | cons p rest ih =>
    obtain ⟨k₀, v₀⟩ := p
    by_cases h₀ : k₀ = k'
    · subst h₀
      by_cases h₁ : k₀ = k <;> simp [jsSet, jsGet, h₁]
    · by_cases h₁ : k₀ = k
      · subst h₁
        simp [jsSet, jsGet, h₀, Ne.symm h₀]
      · simp [jsSet, jsGet, h₀, h₁, ih]

theorem jsKeys_jsSet (k : String) (v : α) (m : JsMap α) :
    jsKeys (jsSet k v m) = if jsHas k m then jsKeys m else jsKeys m ++ [k] := by
  induction m with
  | nil => simp [jsSet, jsKeys, jsHas, jsGet]
  | cons p rest ih =>
    obtain ⟨k₀, v₀⟩ := p
    by_cases h₀ : k₀ = k
    · subst h₀
      simp [jsSet, jsKeys, jsHas, jsGet]
    · simp only [jsSet, if_neg h₀, jsKeys, List.map_cons, jsHas, jsGet]
      simp only [jsKeys, jsHas] at ih
      rw [ih]
      by_cases h₁ : (jsGet k rest).isSome <;> simp [h₁]

theorem jsHas_iff_mem_jsKeys (k : String) (m : JsMap α) :
    jsHas k m = true ↔ k ∈ jsKeys m := by
  induction m with
  | nil => simp [jsHas, jsGet, jsKeys]
  | cons p rest ih =>
    obtain ⟨k₀, v₀⟩ := p
    by_cases h₀ : k₀ = k
    · subst h₀; simp [jsHas, jsGet, jsKeys]
    · simp only [jsHas, jsGet, if_neg h₀, jsKeys, List.map_cons, List.mem_cons]
      simp only [jsHas, jsKeys] at ih
      rw [ih]
      have hne : ¬ k = k₀ := fun he => h₀ he.symm
      simp [hne]

theorem nodup_jsKeys_jsSet (k : String) (v : α) (m : JsMap α)
    (h : (jsKeys m).Nodup) : (jsKeys (jsSet k v m)).Nodup := by
  rw [jsKeys_jsSet]
  by_cases hk : jsHas k m
  · simpa [hk]
  · rw [if_neg hk]
    have : k ∉ jsKeys m := fun hmem => hk ((jsHas_iff_mem_jsKeys k m).mpr hmem)
    simp [List.nodup_append, h, this]

theorem nodup_jsKeys_foldl_jsSet (key : α → String) (xs : List α) (m : JsMap α)
    (h : (jsKeys m).Nodup) :
    (jsKeys (xs.foldl (fun m x => jsSet (key x) x m) m)).Nodup := by
  induction xs generalizing m with
  | nil => simpa
  | cons x rest ih =>
    simp only [List.foldl_cons]
    exact ih _ (nodup_jsKeys_jsSet _ _ _ h)

theorem nodup_jsKeys_jsOfList (key : α → String) (xs : List α) :
    (jsKeys (jsOfList key xs)).Nodup :=
  nodup_jsKeys_foldl_jsSet key xs [] (by simp [jsKeys])

theorem jsGet_of_mem (k : String) (v : α) (m : JsMap α)
    (hmem : (k, v) ∈ m) (hnd : (jsKeys m).Nodup) : jsGet k m = some v := by
  induction m with
  | nil => cases hmem
  | cons p rest ih =>
    obtain ⟨k₀, v₀⟩ := p
    rcases List.mem_cons.mp hmem with h | h
    · obtain ⟨h₁, h₂⟩ := Prod.mk.injEq .. ▸ h
      simp [jsGet, h₁.symm, h₂]
    · have hnd₁ : k₀ ∉ List.map (fun x : String × α => x.1) rest := by
        have hc := hnd
        simp only [jsKeys, List.map_cons, List.nodup_cons] at hc
        exact hc.1
      have hnd₂ : (jsKeys rest).Nodup := by
        have hc := hnd
        simp only [jsKeys, List.map_cons, List.nodup_cons] at hc
        exact hc.2
      have hk : k₀ ≠ k := by
        intro he
        subst he
        exact hnd₁ (by simpa using List.mem_map_of_mem (fun x : String × α => x.1) h)
      simp [jsGet, hk, ih h hnd₂]

theorem mem_of_jsGet (k : String) (v : α) (m : JsMap α)
    (h : jsGet k m = some v) : (k, v) ∈ m := by
  induction m with
  | nil => simp [jsGet] at h
  | cons p rest ih =>
    obtain ⟨k₀, v₀⟩ := p
    by_cases h₀ : k₀ = k
    · subst h₀
      simp [jsGet] at h
      simp [h]
    · simp [jsGet, h₀] at h
      exact List.mem_cons_of_mem _ (ih h)

theorem mem_jsOfList_foldl (key : α → String) (xs : List α) (m : JsMap α)
    (p : String × α)
    (hp : p ∈ xs.foldl (fun m x => jsSet (key x) x m) m) :
    p ∈ m ∨ ∃ x ∈ xs, p = (key x, x) := by
  induction xs generalizing m with
  | nil =>
    simp only [List.foldl_nil] at hp
    exact Or.inl hp
  | cons x rest ih =>
    simp only [List.foldl_cons] at hp
    rcases ih _ hp with h | h
    · -- p came through `jsSet (key x) x m`
      clear hp ih
      induction m with
      | nil =>
        simp [jsSet] at h
        exact Or.inr ⟨x, by simp, h⟩
      | cons q m' ihm =>
        obtain ⟨k₀, v₀⟩ := q
        by_cases h₀ : k₀ = key x
        · subst h₀
          simp only [jsSet, if_pos rfl] at h
          rcases List.mem_cons.mp h with h | h
          · exact Or.inr ⟨x, by simp, h⟩
          · exact Or.inl (List.mem_cons_of_mem _ h)
        · simp only [jsSet, if_neg h₀] at h
          rcases List.mem_cons.mp h with h | h
          · exact Or.inl (by simp [h])
          · rcases ihm h with h' | h'
            · exact Or.inl (List.mem_cons_of_mem _ h')
            · exact Or.inr h'
    · obtain ⟨y, hy, hpy⟩ := h
      exact Or.inr ⟨y, List.mem_cons_of_mem _ hy, hpy⟩

theorem mem_jsOfList (key : α → String) (xs : List α) (p : String × α)
    (hp : p ∈ jsOfList key xs) : ∃ x ∈ xs, p = (key x, x) := by
  rcases mem_jsOfList_foldl key xs [] p hp with h | h
  · cases h
  · exact h

/-- Last-write-wins for map construction: the value found at a key is the
last element of the list with that key (falling back to the initial map). -/
theorem jsGet_foldl_jsSet (key : α → String) (k : String) (xs : List α)
    (m : JsMap α) :
    jsGet k (xs.foldl (fun m x => jsSet (key x) x m) m) =
      ((xs.reverse.find? (fun x => key x = k)).or (jsGet k m)) := by
  induction xs generalizing m with
  | nil => simp
  | cons x rest ih =>
    simp only [List.foldl_cons, List.reverse_cons, List.find?_append]
    rw [ih]
    by_cases h : key x = k
    · simp [jsGet_jsSet, h, Option.or_assoc, List.find?]
    · simp [jsGet_jsSet, h, Option.or_assoc, List.find?]

theorem jsGet_jsOfList (key : α → String) (k : String) (xs : List α) :
    jsGet k (jsOfList key xs) = xs.reverse.find? (fun x => key x = k) := by
  rw [jsOfList, jsGet_foldl_jsSet]
  simp [jsGet]

theorem jsGet_jsUpdate (k k' : String) (f : α → α) (m : JsMap α) :
    jsGet k (jsUpdate k' f m) =
      if k' = k then (jsGet k m).map f else jsGet k m := by
  induction m with
  | nil => simp [jsUpdate, jsGet]
  | cons p rest ih =>
    obtain ⟨k₀, v₀⟩ := p
    by_cases h₀ : k₀ = k'
    · subst h₀
      by_cases h₁ : k₀ = k <;> simp [jsUpdate, jsGet, h₁]
    · by_cases h₁ : k₀ = k
      · subst h₁
        simp [jsUpdate, jsGet, h₀, Ne.symm h₀]
      · simp [jsUpdate, jsGet, h₀, h₁, ih]

theorem jsGet_jsDelete_ne (k k' : String) (m : JsMap α) (h : k' ≠ k) :
    jsGet k (jsDelete k' m) = jsGet k m := by
  induction m with
  | nil => simp [jsDelete]
  | cons p rest ih =>
    obtain ⟨k₀, v₀⟩ := p
    by_cases h₀ : k₀ = k'
    · subst h₀
      have hk : ¬ k₀ = k := h
      simp [jsDelete, jsGet, hk]
    · simp [jsDelete, jsGet, h₀, ih]

theorem jsDelete_eq_filter (k : String) (m : JsMap α)
    (hnd : (jsKeys m).Nodup) :
    jsDelete k m = m.filter (fun e => e.1 ≠ k) := by
  induction m with
  | nil => simp [jsDelete]
  | cons p rest ih =>
    obtain ⟨k₀, v₀⟩ := p
    have hnd₁ : k₀ ∉ List.map (fun x : String × α => x.1) rest := by
      have hc := hnd
      simp only [jsKeys, List.map_cons, List.nodup_cons] at hc
      exact hc.1
    have hnd₂ : (jsKeys rest).Nodup := by
      have hc := hnd
      simp only [jsKeys, List.map_cons, List.nodup_cons] at hc
      exact hc.2
    by_cases h₀ : k₀ = k
    · subst h₀
      have hfilter : rest.filter (fun e : String × α => e.1 ≠ k₀) = rest := by
        apply List.filter_eq_self.mpr
        intro e he
        have hek : e.1 ≠ k₀ := by
          intro hek
          exact hnd₁ (hek ▸ List.mem_map_of_mem (fun x : String × α => x.1) he)
        simp [hek]
      simp only [ne_eq, decide_not] at hfilter
      simp only [jsDelete, if_pos rfl, List.filter_cons]
      simp [hfilter]
    · simp [jsDelete, h₀, ih hnd₂]

theorem nodup_jsKeys_foldl_jsSet_val (key : α → String) (val : α → β)
    (xs : List α) (m : JsMap β) (h : (jsKeys m).Nodup) :
    (jsKeys (xs.foldl (fun m x => jsSet (key x) (val x) m) m)).Nodup := by
  induction xs generalizing m with
  | nil => simpa
  | cons x rest ih =>
    simp only [List.foldl_cons]
    exact ih _ (nodup_jsKeys_jsSet _ _ _ h)

theorem jsGet_foldl_jsSet_val (key : α → String) (val : α → β) (k : String)
    (xs : List α) (m : JsMap β) :
    jsGet k (xs.foldl (fun m x => jsSet (key x) (val x) m) m) =
      ((xs.reverse.find? (fun x => key x = k)).map val).or (jsGet k m) := by
  induction xs generalizing m with
  | nil => simp
  | cons x rest ih =>
    simp only [List.foldl_cons, List.reverse_cons, List.find?_append]
    rw [ih]
    cases hF : rest.reverse.find? (fun x => decide (key x = k)) with
    | some y => simp [hF, jsGet_jsSet]
    | none =>
      by_cases h : key x = k <;> simp [hF, jsGet_jsSet, h, List.find?]

theorem mem_foldl_jsSet_val (key : α → String) (val : α → β) (xs : List α)
    (m : JsMap β) (p : String × β)
    (hp : p ∈ xs.foldl (fun m x => jsSet (key x) (val x) m) m) :
    p ∈ m ∨ ∃ x ∈ xs, p = (key x, val x) := by
  induction xs generalizing m with
  | nil =>
    simp only [List.foldl_nil] at hp
    exact Or.inl hp
  | cons x rest ih =>
    simp only [List.foldl_cons] at hp
    rcases ih _ hp with h | h
    · clear hp ih
      induction m with
      | nil =>
        simp [jsSet] at h
        exact Or.inr ⟨x, by simp, h⟩
      | cons q m' ihm =>
        obtain ⟨k₀, v₀⟩ := q
        by_cases h₀ : k₀ = key x
        · subst h₀
          simp only [jsSet, if_pos rfl] at h
          rcases List.mem_cons.mp h with h | h
          · exact Or.inr ⟨x, by simp, h⟩
          · exact Or.inl (List.mem_cons_of_mem _ h)
        · simp only [jsSet, if_neg h₀] at h
          rcases List.mem_cons.mp h with h | h
          · exact Or.inl (by simp [h])
          · rcases ihm h with h' | h'
            · exact Or.inl (List.mem_cons_of_mem _ h')
            · exact Or.inr h'
    · obtain ⟨y, hy, hpy⟩ := h
      exact Or.inr ⟨y, List.mem_cons_of_mem _ hy, hpy⟩

theorem jsKeys_jsUpdate (k : String) (f : α → α) (m : JsMap α) :
    jsKeys (jsUpdate k f m) = jsKeys m := by
  induction m with
  | nil => rfl
  | cons p rest ih =>
    obtain ⟨k₀, v₀⟩ := p
    by_cases h₀ : k₀ = k
    · simp [jsUpdate, jsKeys, h₀]
    · simp only [jsUpdate, if_neg h₀, jsKeys, List.map_cons]
      simpa [jsKeys] using ih

theorem mem_jsUpdate (k : String) (f : α → α) (m : JsMap α) (p : String × α)
    (hp : p ∈ jsUpdate k f m) :
    p ∈ m ∨ ∃ v, (p.1, v) ∈ m ∧ p.2 = f v := by
  induction m with
  | nil => simp [jsUpdate] at hp
  | cons q rest ih =>
    obtain ⟨k₀, v₀⟩ := q
    by_cases h₀ : k₀ = k
    · subst h₀
      simp only [jsUpdate, if_pos rfl] at hp
      rcases List.mem_cons.mp hp with h | h
      · right
        refine ⟨v₀, by simp [congrArg Prod.fst h], ?_⟩
        have := congrArg Prod.snd h
        simpa using this
      · exact Or.inl (List.mem_cons_of_mem _ h)
    · simp only [jsUpdate, if_neg h₀] at hp
      rcases List.mem_cons.mp hp with h | h
      · exact Or.inl (by simp [h])
      · rcases ih h with h' | h'
        · exact Or.inl (List.mem_cons_of_mem _ h')
        · obtain ⟨v, hv, he⟩ := h'
          exact Or.inr ⟨v, List.mem_cons_of_mem _ hv, he⟩

/-- JS `String.prototype.toLowerCase`, modelled character-wise (ASCII case
mapping; the sources compare ASCII identifiers).  Defined by structural
recursion on the character list so that it evaluates in the kernel. -/
def jsToLower (s : String) : String := String.mk (s.toList.map Char.toLower)

/-!
Section: Data model (`backend/src/types.ts`)

`SchemaExport.meta` (timestamp, database identity, capture filters) is not
read by any of the verified pure functions (`diffSchemas`, `mapInterfaces`,
the row-assembly of `extractSchema`) and is omitted from the embedding.
-/

/-- `PgColumn` of types.ts. -/
structure PgColumn where
  name : String
  type : String
  nullable : Bool
  default : Option String
  isPrimaryKey : Bool
  isUnique : Bool
  isGenerated : Bool
  comment : Option String
deriving DecidableEq, Repr

/-- `PgForeignKey` of types.ts. -/
structure PgForeignKey where
  name : String
  columns : List String
  refTable : String
  refSchema : String
  refColumns : List String
  onUpdate : Option String
  onDelete : Option String
deriving DecidableEq, Repr

/-- A named ordered column list (primary key / unique constraint). -/
structure NamedColumns where
  name : String
  columns : List String
deriving DecidableEq, Repr

/-- A named check constraint. -/
structure CheckConstraint where
  name : String
  expression : String
deriving DecidableEq, Repr

/-- `PgTable` of types.ts. -/
structure PgTable where
  name : String
  schema : String
  comment : Option String
  columns : List PgColumn
  primaryKey : Option NamedColumns
  uniques : List NamedColumns
  checks : List CheckConstraint
  foreignKeys : List PgForeignKey
  rowEstimate : Option Int
deriving DecidableEq, Repr

/-- `PgEnum` of types.ts. -/
structure PgEnum where
  name : String
  schema : String
  values : List String
  comment : Option String
deriving DecidableEq, Repr

/-- `PgView` of types.ts. -/
structure PgView where
  name : String
  schema : String
  definition : Option String
  columns : List (String × String)
deriving DecidableEq, Repr

/-- Relationship cardinality tags of types.ts. -/
inductive RelType where
  | one_to_one
  | one_to_many
  | many_to_one
  | many_to_many
deriving DecidableEq, Repr

/-- A relationship endpoint (`from`/`to` of `PgRelationship`). -/
structure RelEndpoint where
  table : String
  schema : String
  columns : List String
deriving DecidableEq, Repr

/-- `PgRelationship` of types.ts (`from`/`to` are Lean keywords, hence
`from_`/`to_`). -/
structure PgRelationship where
  name : String
  type : RelType
  from_ : RelEndpoint
  to_ : RelEndpoint
  fkName : String
deriving DecidableEq, Repr

/-- `PgIndex` of types.ts. -/
structure PgIndex where
  name : String
  schema : String
  table : String
  columns : List String
  isUnique : Bool
  isPrimary : Bool
  method : Option String
  definition : Option String
deriving DecidableEq, Repr

/-- A field of an `InterfaceDef`. -/
structure IfField where
  name : String
  type : String
  nullable : Bool
deriving DecidableEq, Repr

/-- Field-level diff produced by the interface mapper. -/
structure FieldDiff where
  missingInTable : List String
  extraInTable : List String
  nullableMismatches : List String
  typeMismatches : List String
deriving DecidableEq, Repr

/-- `mappedTo` payload as produced by `mapInterfaces` in extract.ts. -/
structure MappedTo where
  table : String
  schema : String
  confidence : ℚ
  fieldDiff : FieldDiff
deriving DecidableEq, Repr

/-- `InterfaceDef` of types.ts. -/
structure InterfaceDef where
  name : String
  source : String
  fields : List IfField
  mappedTo : Option MappedTo
deriving DecidableEq, Repr

/-- `WarningDef` of types.ts. -/
structure WarningDef where
  type : String
  message : String
  source : Option String
deriving DecidableEq, Repr

/-- `SchemaExport` of types.ts, restricted to the fields the verified
functions read (`meta` omitted, see module comment). -/
structure SchemaExport where
  enums : List PgEnum
  tables : List PgTable
  views : List PgView
  relationships : List PgRelationship
  indexes : List PgIndex
  interfaces : List InterfaceDef
  warnings : List WarningDef
deriving DecidableEq, Repr

/-!
Section: Snapshot diff engine (`backend/src/snapshotDiff.ts`)
-/

/-- `keyTable` of snapshotDiff.ts. -/
def keyTable (t : PgTable) : String := t.schema ++ "." ++ t.name

/-- `keyIndex` of snapshotDiff.ts. -/
def keyIndex (i : PgIndex) : String := i.schema ++ "." ++ i.table ++ "." ++ i.name

/-- `keyEnum` of snapshotDiff.ts. -/
def keyEnum (e : PgEnum) : String := e.schema ++ "." ++ e.name

/-- `keyRel` of snapshotDiff.ts. -/
def keyRel (r : PgRelationship) : String :=
  r.from_.schema ++ "." ++ r.from_.table ++ "->" ++
    r.to_.schema ++ "." ++ r.to_.table ++ "." ++ r.fkName

/-- One entry of `columnChanges` in the diff report. -/
structure ColumnChange where
  table : String
  added : List String
  removed : List String
  changed : List String
deriving DecidableEq, Repr

/-- Added/removed key lists for one entity kind. -/
structure PairDiff where
  added : List String
  removed : List String
deriving DecidableEq, Repr

/-- The `tables` part of the diff report. -/
structure TableDiff where
  added : List String
  removed : List String
  changed : List String
  columnChanges : List ColumnChange
deriving DecidableEq, Repr

/-- The value returned by `diffSchemas`. -/
structure DiffReport where
  tables : TableDiff
  enums : PairDiff
  indexes : PairDiff
  relationships : PairDiff
  interfaces : PairDiff
  breaking : List String
deriving DecidableEq, Repr

/-- The `changed`-column condition of snapshotDiff.ts lines 46-50
(a JS falsy default is compared as the empty string). -/
def colChangedCond (ca cb : PgColumn) : Bool :=
  ca.type ≠ cb.type || ca.nullable ≠ cb.nullable ||
    (ca.default.getD "" ≠ cb.default.getD "")

/-- Breaking-change message for a column tightened to NOT NULL. -/
def notNullMsg (k name : String) : String :=
  "Column " ++ k ++ "." ++ name ++ " changed to NOT NULL"

/-- Breaking-change message for a column type change. -/
def typeMsg (k name t1 t2 : String) : String :=
  "Column " ++ k ++ "." ++ name ++ " type changed from " ++ t1 ++ " to " ++ t2

/-- Breaking-change message for a removed column. -/
def removedMsg (k name : String) : String :=
  "Column " ++ k ++ "." ++ name ++ " was removed"

/-- Result of the loop over `colB.entries()` (snapshotDiff.ts lines 40-59). -/
structure ColsLoopOut where
  added : List String
  changed : List String
  breaking : List String
deriving DecidableEq, Repr

/-- Loop over the entries of the candidate table's column map: additions,
changed columns and the breaking entries they contribute, in entry order. -/
def diffColsLoop (k : String) (colA : JsMap PgColumn) :
    List (String × PgColumn) → ColsLoopOut
  | [] => ⟨[], [], []⟩
  | (name, cb) :: rest =>
    let r := diffColsLoop k colA rest
    match jsGet name colA with
    | none => ⟨name :: r.added, r.changed, r.breaking⟩
    | some ca =>
      if colChangedCond ca cb then
        ⟨r.added, name :: r.changed,
          ((if !cb.nullable && ca.nullable then [notNullMsg k name] else []) ++
           (if ca.type ≠ cb.type then [typeMsg k name ca.type cb.type] else [])) ++
            r.breaking⟩
      else r

/-- Result of the loop over `colA.keys()` (snapshotDiff.ts lines 60-65). -/
structure RemLoopOut where
  removed : List String
  breaking : List String
deriving DecidableEq, Repr

/-- Loop over the keys of the base table's column map: removed columns and
their breaking entries, in entry order. -/
def removedColsLoop (k : String) (colB : JsMap PgColumn) :
    List (String × PgColumn) → RemLoopOut
  | [] => ⟨[], []⟩
  | (name, _) :: rest =>
    let r := removedColsLoop k colB rest
    if jsHas name colB then r
    else ⟨name :: r.removed, removedMsg k name :: r.breaking⟩

/-- JS `new Set(xs)` iteration order: first occurrences, in order. -/
def dedupFirstAux (seen : List String) : List String → List String
  | [] => []
  | x :: xs =>
    if x ∈ seen then dedupFirstAux seen xs else x :: dedupFirstAux (x :: seen) xs

/-- `Array.from(new Set(xs))`. -/
def dedupFirst (xs : List String) : List String := dedupFirstAux [] xs

/-- Accumulators of the per-table loop (snapshotDiff.ts lines 32-77). -/
structure TblLoopOut where
  changedTables : List String
  columnChanges : List ColumnChange
  breaking : List String
deriving DecidableEq, Repr

/-- The loop over `tablesB.entries()` of snapshotDiff.ts lines 32-77,
skipping tables not present in `tablesA`. -/
def diffTablesLoop (tablesA : JsMap PgTable) :
    List (String × PgTable) → TblLoopOut
  | [] => ⟨[], [], []⟩
  | (k, tb) :: rest =>
    let r := diffTablesLoop tablesA rest
    match jsGet k tablesA with
    | none => r
    | some ta =>
      let colA := jsOfList (fun c : PgColumn => c.name) ta.columns
      let colB := jsOfList (fun c : PgColumn => c.name) tb.columns
      let cl := diffColsLoop k colA colB
      let rl := removedColsLoop k colB colA
      let ccs : List ColumnChange :=
        if !cl.added.isEmpty || !rl.removed.isEmpty || !cl.changed.isEmpty then
          [⟨k, cl.added, rl.removed, cl.changed⟩]
        else []
      let cts : List String :=
        if !cl.changed.isEmpty || !rl.removed.isEmpty || !cl.added.isEmpty then
          [k ++ " (" ++
            String.intercalate "," (dedupFirst (cl.added ++ rl.removed ++ cl.changed)) ++ ")"]
        else []
      ⟨cts ++ r.changedTables, ccs ++ r.columnChanges,
        (cl.breaking ++ rl.breaking) ++ r.breaking⟩

/-- `diffSchemas` of snapshotDiff.ts. -/
def diffSchemas (a b : SchemaExport) : DiffReport :=
  let tablesA := jsOfList keyTable a.tables
  let tablesB := jsOfList keyTable b.tables
  let removedTables := (jsKeys tablesA).filter (fun k => !jsHas k tablesB)
  let addedTables := (jsKeys tablesB).filter (fun k => !jsHas k tablesA)
  let tl := diffTablesLoop tablesA tablesB
  let enumsA := jsOfList keyEnum a.enums
  let enumsB := jsOfList keyEnum b.enums
  let addedEnums := (jsKeys enumsB).filter (fun k => !jsHas k enumsA)
  let removedEnums := (jsKeys enumsA).filter (fun k => !jsHas k enumsB)
  let idxA := jsOfList keyIndex a.indexes
  let idxB := jsOfList keyIndex b.indexes
  let addedIdx := (jsKeys idxB).filter (fun k => !jsHas k idxA)
  let removedIdx := (jsKeys idxA).filter (fun k => !jsHas k idxB)
  let relA := jsOfList keyRel a.relationships
  let relB := jsOfList keyRel b.relationships
  let addedRel := (jsKeys relB).filter (fun k => !jsHas k relA)
  let removedRel := (jsKeys relA).filter (fun k => !jsHas k relB)
  let interfacesA := jsOfList (fun i : InterfaceDef => (jsToLower i.name)) a.interfaces
  let interfacesB := jsOfList (fun i : InterfaceDef => (jsToLower i.name)) b.interfaces
  let addedInterfaces := (jsKeys interfacesB).filter (fun k => !jsHas k interfacesA)
  let removedInterfaces := (jsKeys interfacesA).filter (fun k => !jsHas k interfacesB)
  { tables := ⟨addedTables, removedTables, tl.changedTables, tl.columnChanges⟩
    enums := ⟨addedEnums, removedEnums⟩
    indexes := ⟨addedIdx, removedIdx⟩
    relationships := ⟨addedRel, removedRel⟩
    interfaces := ⟨addedInterfaces, removedInterfaces⟩
    breaking := tl.breaking }

/-!
Section: Diff-engine lemmas
-/

theorem keys_filter_not_has_self (m : JsMap α) :
    (jsKeys m).filter (fun k => !jsHas k m) = [] := by
  rw [List.filter_eq_nil_iff]
  intro k hk
  simp [(jsHas_iff_mem_jsKeys k m).mpr hk]

theorem jsHas_of_mem (p : String × α) (m : JsMap α) (hp : p ∈ m) :
    jsHas p.1 m = true := by
  apply (jsHas_iff_mem_jsKeys _ _).mpr
  simpa [jsKeys] using List.mem_map_of_mem (fun x : String × α => x.1) hp

theorem diffColsLoop_self (k : String) (colA : JsMap PgColumn)
    (l : List (String × PgColumn))
    (hl : ∀ p ∈ l, jsGet p.1 colA = some p.2) :
    diffColsLoop k colA l = ⟨[], [], []⟩ := by
  induction l with
  | nil => rfl
  | cons p rest ih =>
    obtain ⟨name, cb⟩ := p
    have hhd : jsGet name colA = some cb := hl (name, cb) (by simp)
    have hrest := ih (fun q hq => hl q (List.mem_cons_of_mem _ hq))
    simp [diffColsLoop, hhd, hrest, colChangedCond]

theorem removedColsLoop_self (k : String) (colB : JsMap PgColumn)
    (l : List (String × PgColumn))
    (hl : ∀ p ∈ l, jsHas p.1 colB = true) :
    removedColsLoop k colB l = ⟨[], []⟩ := by
  induction l with
  | nil => rfl
  | cons p rest ih =>
    obtain ⟨name, cb⟩ := p
    have hhd : jsHas name colB = true := hl (name, cb) (by simp)
    have hrest := ih (fun q hq => hl q (List.mem_cons_of_mem _ hq))
    simp [removedColsLoop, hhd, hrest]

theorem diffTablesLoop_self (mA : JsMap PgTable) (l : List (String × PgTable))
    (hl : ∀ p ∈ l, jsGet p.1 mA = some p.2) :
    diffTablesLoop mA l = ⟨[], [], []⟩ := by
  induction l with
  | nil => rfl
  | cons p rest ih =>
    obtain ⟨k, tb⟩ := p
    have hhd : jsGet k mA = some tb := hl (k, tb) (by simp)
    have hrest := ih (fun q hq => hl q (List.mem_cons_of_mem _ hq))
    have hcols := diffColsLoop_self k
      (jsOfList (fun c : PgColumn => c.name) tb.columns)
      (jsOfList (fun c : PgColumn => c.name) tb.columns)
      (fun q hq => jsGet_of_mem q.1 q.2 _ (by simpa using hq)
        (nodup_jsKeys_jsOfList _ _))
    have hrem := removedColsLoop_self k
      (jsOfList (fun c : PgColumn => c.name) tb.columns)
      (jsOfList (fun c : PgColumn => c.name) tb.columns)
      (fun q hq => jsHas_of_mem q _ hq)
    simp [diffTablesLoop, hhd, hrest, hcols, hrem]

/-- The empty diff report. -/
def emptyReport : DiffReport :=
  ⟨⟨[], [], [], []⟩, ⟨[], []⟩, ⟨[], []⟩, ⟨[], []⟩, ⟨[], []⟩, []⟩

/-- C6: `diff(A,A)` yields the all-empty report.  (`diffSchemas` is a total
Lean function, so the never-fails part of the claim holds by construction.) -/
theorem diffSchemas_self_empty (a : SchemaExport) :
    diffSchemas a a = emptyReport := by
  have hT := diffTablesLoop_self (jsOfList keyTable a.tables)
    (jsOfList keyTable a.tables)
    (fun p hp => jsGet_of_mem p.1 p.2 _ (by simpa using hp)
      (nodup_jsKeys_jsOfList _ _))
  simp [diffSchemas, keys_filter_not_has_self, hT, emptyReport]

/-- Column map of a table, as built by the diff engine. -/
def colMap (t : PgTable) : JsMap PgColumn :=
  jsOfList (fun c : PgColumn => c.name) t.columns

/-- Specification of when a string is a breaking entry of `diff(a,b)`:
some table key is present in both snapshots and one of its columns is
removed, tightened from nullable to NOT NULL, or changes its type text. -/
def BreakingEntrySpec (a b : SchemaExport) (e : String) : Prop :=
  ∃ k ta tb, jsGet k (jsOfList keyTable a.tables) = some ta ∧
    jsGet k (jsOfList keyTable b.tables) = some tb ∧
    ∃ name,
      (∃ ca cb, jsGet name (colMap ta) = some ca ∧ jsGet name (colMap tb) = some cb ∧
        ((ca.nullable = true ∧ cb.nullable = false ∧ e = notNullMsg k name) ∨
         (ca.type ≠ cb.type ∧ e = typeMsg k name ca.type cb.type))) ∨
      (∃ ca, jsGet name (colMap ta) = some ca ∧ jsGet name (colMap tb) = none ∧
        e = removedMsg k name)

theorem mem_diffColsLoop_breaking (e k : String) (colA : JsMap PgColumn)
    (l : List (String × PgColumn)) :
    e ∈ (diffColsLoop k colA l).breaking ↔
      ∃ p ∈ l, ∃ ca, jsGet p.1 colA = some ca ∧
        ((ca.nullable = true ∧ p.2.nullable = false ∧ e = notNullMsg k p.1) ∨
         (ca.type ≠ p.2.type ∧ e = typeMsg k p.1 ca.type p.2.type)) := by
  induction l with
  | nil => simp [diffColsLoop]
  | cons p rest ih =>
    obtain ⟨name, cb⟩ := p
    match hget : jsGet name colA with
    | none =>
      simp only [diffColsLoop, hget, List.mem_cons]
      rw [ih]
      constructor
      · rintro ⟨q, hq, hrest⟩
        exact ⟨q, Or.inr hq, hrest⟩
      · rintro ⟨q, hq | hq, hrest⟩
        · subst hq
          obtain ⟨ca, hca, _⟩ := hrest
          simp [hget] at hca
        · exact ⟨q, hq, hrest⟩
    | some ca =>
      by_cases hcond : colChangedCond ca cb
      · simp only [diffColsLoop, hget, if_pos hcond, List.mem_append, List.mem_cons]
        rw [ih]
        constructor
        · rintro ((h | h) | h)
          · refine ⟨(name, cb), Or.inl rfl, ca, hget, Or.inl ?_⟩
            rcases Decidable.em ((!cb.nullable && ca.nullable) = true) with h1 | h1
            · rw [if_pos h1] at h
              simp only [List.mem_singleton] at h
              simp only [Bool.and_eq_true, Bool.not_eq_true'] at h1
              exact ⟨h1.2, h1.1, h⟩
            · rw [if_neg h1] at h
              exact absurd h (List.not_mem_nil e)
          · refine ⟨(name, cb), Or.inl rfl, ca, hget, Or.inr ?_⟩
            rcases Decidable.em (ca.type ≠ cb.type) with h2 | h2
            · rw [if_pos (by simpa using h2)] at h
              simp only [List.mem_singleton] at h
              exact ⟨h2, h⟩
            · rw [if_neg (by simpa using h2)] at h
              exact absurd h (List.not_mem_nil e)
          · obtain ⟨q, hq, hrest⟩ := h
            exact ⟨q, Or.inr hq, hrest⟩
        · rintro ⟨q, hq | hq, hrest⟩
          · subst hq
            obtain ⟨ca', hca', hdisj⟩ := hrest
            rw [hget] at hca'
            injection hca' with hca'
            subst hca'
            rcases hdisj with ⟨h1, h2, h3⟩ | ⟨h1, h2⟩
            · refine Or.inl (Or.inl ?_)
              have h2' : cb.nullable = false := h2
              have h3' : e = notNullMsg k name := h3
              have hc : (!cb.nullable && ca.nullable) = true := by simp [h1, h2']
              rw [if_pos hc]
              simp [h3']
            · refine Or.inl (Or.inr ?_)
              have h1' : ca.type ≠ cb.type := h1
              have h2' : e = typeMsg k name ca.type cb.type := h2
              rw [if_pos (by simpa using h1')]
              simp [h2']
          · obtain ⟨ca', hca', hdisj⟩ := hrest
            exact Or.inr ⟨q, hq, ca', hca', hdisj⟩
      · simp only [diffColsLoop, hget, if_neg hcond]
        rw [ih]
        constructor
        · rintro ⟨q, hq, hrest⟩
          exact ⟨q, List.mem_cons_of_mem _ hq, hrest⟩
        · rintro ⟨q, hq, hrest⟩
          rcases List.mem_cons.mp hq with hq | hq
          · subst hq
            obtain ⟨ca', hca', hdisj⟩ := hrest
            rw [hget] at hca'
            injection hca' with hca'
            subst hca'
            exfalso
            simp only [colChangedCond, Bool.or_eq_true, decide_eq_true_eq,
              Bool.not_eq_true, ne_eq] at hcond
            push_neg at hcond
            rcases hdisj with ⟨h1, h2, _⟩ | ⟨h1, _⟩
            · have := hcond.1.2
              rw [h1, h2] at this
              simp at this
            · exact h1 hcond.1.1
          · exact ⟨q, hq, hrest⟩

theorem mem_removedColsLoop_breaking (e k : String) (colB : JsMap PgColumn)
    (l : List (String × PgColumn)) :
    e ∈ (removedColsLoop k colB l).breaking ↔
      ∃ p ∈ l, jsGet p.1 colB = none ∧ e = removedMsg k p.1 := by
  induction l with
  | nil => simp [removedColsLoop]
  | cons p rest ih =>
    obtain ⟨name, cb⟩ := p
    by_cases hhas : jsHas name colB
    · simp only [removedColsLoop, if_pos hhas]
      rw [ih]
      constructor
      · rintro ⟨q, hq, hrest⟩
        exact ⟨q, List.mem_cons_of_mem _ hq, hrest⟩
      · rintro ⟨q, hq, hnone, he⟩
        rcases List.mem_cons.mp hq with hq | hq
        · subst hq
          simp [jsHas, hnone] at hhas
        · exact ⟨q, hq, hnone, he⟩
    · simp only [removedColsLoop, if_neg hhas, List.mem_cons]
      rw [ih]
      have hnone : jsGet name colB = none := by
        cases hjs : jsGet name colB with
        | none => rfl
        | some c => simp [jsHas, hjs] at hhas
      constructor
      · rintro (he | ⟨q, hq, hrest⟩)
        · exact ⟨(name, cb), Or.inl rfl, hnone, he⟩
        · exact ⟨q, Or.inr hq, hrest⟩
      · rintro ⟨q, hq | hq, hrest⟩
        · subst hq
          exact Or.inl hrest.2
        · exact Or.inr ⟨q, hq, hrest⟩

theorem mem_diffTablesLoop_breaking (e : String) (tA : JsMap PgTable)
    (l : List (String × PgTable)) :
    e ∈ (diffTablesLoop tA l).breaking ↔
      ∃ q ∈ l, ∃ ta, jsGet q.1 tA = some ta ∧
        (e ∈ (diffColsLoop q.1 (colMap ta) (colMap q.2)).breaking ∨
         e ∈ (removedColsLoop q.1 (colMap q.2) (colMap ta)).breaking) := by
  induction l with
  | nil => simp [diffTablesLoop]
  | cons q rest ih =>
    obtain ⟨k, tb⟩ := q
    match hget : jsGet k tA with
    | none =>
      simp only [diffTablesLoop, hget]
      rw [ih]
      constructor
      · rintro ⟨q, hq, hrest⟩
        exact ⟨q, List.mem_cons_of_mem _ hq, hrest⟩
      · rintro ⟨q, hq, ta, hta, hrest⟩
        rcases List.mem_cons.mp hq with hq | hq
        · subst hq
          rw [hget] at hta
          cases hta
        · exact ⟨q, hq, ta, hta, hrest⟩
    | some ta =>
      simp only [diffTablesLoop, hget, List.mem_append, List.mem_cons]
      rw [ih]
      constructor
      · rintro ((h | h) | h)
        · exact ⟨(k, tb), Or.inl rfl, ta, hget, Or.inl h⟩
        · exact ⟨(k, tb), Or.inl rfl, ta, hget, Or.inr h⟩
        · obtain ⟨q, hq, hrest⟩ := h
          exact ⟨q, Or.inr hq, hrest⟩
      · rintro ⟨q, hq | hq, ta', hta', hrest⟩
        · subst hq
          rw [hget] at hta'
          injection hta' with hta'
          subst hta'
          rcases hrest with h | h
          · exact Or.inl (Or.inl h)
          · exact Or.inl (Or.inr h)
        · exact Or.inr ⟨q, hq, ta', hta', hrest⟩

theorem mem_breaking_iff (a b : SchemaExport) (e : String) :
    e ∈ (diffSchemas a b).breaking ↔ BreakingEntrySpec a b e := by
  have hb : (diffSchemas a b).breaking =
      (diffTablesLoop (jsOfList keyTable a.tables)
        (jsOfList keyTable b.tables)).breaking := rfl
  rw [hb, mem_diffTablesLoop_breaking, BreakingEntrySpec]
  constructor
  · rintro ⟨q, hq, ta, hta, hrest⟩
    have hqb : jsGet q.1 (jsOfList keyTable b.tables) = some q.2 :=
      jsGet_of_mem q.1 q.2 _ (by simpa using hq) (nodup_jsKeys_jsOfList _ _)
    refine ⟨q.1, ta, q.2, hta, hqb, ?_⟩
    rcases hrest with h | h
    · rw [mem_diffColsLoop_breaking] at h
      obtain ⟨p, hp, ca, hca, hdisj⟩ := h
      have hpb : jsGet p.1 (colMap q.2) = some p.2 :=
        jsGet_of_mem p.1 p.2 _ (by simpa using hp) (nodup_jsKeys_jsOfList _ _)
      exact ⟨p.1, Or.inl ⟨ca, p.2, hca, hpb, hdisj⟩⟩
    · rw [mem_removedColsLoop_breaking] at h
      obtain ⟨p, hp, hnone, he⟩ := h
      have hpa : jsGet p.1 (colMap ta) = some p.2 :=
        jsGet_of_mem p.1 p.2 _ (by simpa using hp) (nodup_jsKeys_jsOfList _ _)
      exact ⟨p.1, Or.inr ⟨p.2, hpa, hnone, he⟩⟩
  · rintro ⟨k, ta, tb, hta, htb, name, hdisj⟩
    have hqmem : (k, tb) ∈ jsOfList keyTable b.tables := mem_of_jsGet _ _ _ htb
    refine ⟨(k, tb), hqmem, ta, hta, ?_⟩
    rcases hdisj with ⟨ca, cb, hca, hcb, hd⟩ | ⟨ca, hca, hnone, he⟩
    · refine Or.inl ?_
      rw [mem_diffColsLoop_breaking]
      exact ⟨(name, cb), mem_of_jsGet _ _ _ hcb, ca, hca, hd⟩
    · refine Or.inr ?_
      rw [mem_removedColsLoop_breaking]
      exact ⟨(name, ca), mem_of_jsGet _ _ _ hca, hnone, he⟩

end SchemaExtractor

namespace SchemaExtractor

/-- The `email` column of the spec's breaking-change scenario (§8). -/
def emailCol (nullable : Bool) : PgColumn :=
  ⟨"email", "text", nullable, none, false, false, false, none⟩

/-- The `public.users` table of the spec's breaking-change scenario. -/
def usersTable (nullable : Bool) : PgTable :=
  ⟨"users", "public", none, [emailCol nullable], none, [], [], [], none⟩

/-- Snapshot A of the scenario: `email` is nullable. -/
def snapUsersA : SchemaExport := ⟨[], [usersTable true], [], [], [], [], []⟩

/-- Snapshot B of the scenario: `email` is NOT NULL. -/
def snapUsersB : SchemaExport := ⟨[], [usersTable false], [], [], [], [], []⟩

/-!
Section: Interface mapper (`mapInterfaces` of extract.ts)
-/

/-- `lowercaseMap` of extract.ts: a map keyed by the lowercased key of each
element, later elements overwriting earlier ones. -/
def lowercaseMap (key : α → String) (arr : List α) : JsMap α :=
  jsOfList (fun x => (jsToLower (key x))) arr

/-- Intermediate state of the per-field loop of `mapInterfaces`
(extract.ts lines 68-77): the three mismatch lists and what remains of the
working column map. -/
structure FieldLoopOut where
  missing : List String
  nulls : List String
  types : List String
  rest : JsMap PgColumn
deriving DecidableEq, Repr

/-- The per-field loop of `mapInterfaces`: look each field up by lowercased
name, record mismatches, and consume the matched column. -/
def fieldLoop (m : JsMap PgColumn) : List IfField → FieldLoopOut
  | [] => ⟨[], [], [], m⟩
  | f :: fs =>
    match jsGet (jsToLower f.name) m with
    | none =>
      let r := fieldLoop m fs
      ⟨f.name :: r.missing, r.nulls, r.types, r.rest⟩
    | some col =>
      let r := fieldLoop (jsDelete (jsToLower f.name) m) fs
      ⟨r.missing,
       if col.nullable ≠ f.nullable then f.name :: r.nulls else r.nulls,
       if (jsToLower col.type) ≠ (jsToLower f.type) then f.name :: r.types else r.types,
       r.rest⟩

theorem jsKeys_filter (m : JsMap α) (p : String → Bool) :
    jsKeys (m.filter (fun e => p e.1)) = (jsKeys m).filter p := by
  induction m with
  | nil => rfl
  | cons x xs ih =>
    by_cases h : p x.1 <;> simp [jsKeys, List.filter_cons, h, ih] <;>
      simpa [jsKeys] using ih

theorem not_mem_jsKeys_of_jsGet_none (k : String) (m : JsMap α)
    (h : jsGet k m = none) : k ∉ jsKeys m := by
  intro hmem
  have := (jsHas_iff_mem_jsKeys k m).mpr hmem
  simp [jsHas, h] at this

theorem jsKeys_jsDelete (k : String) (m : JsMap α)
    (hnd : (jsKeys m).Nodup) :
    jsKeys (jsDelete k m) = (jsKeys m).filter (fun x => x ≠ k) := by
  rw [jsDelete_eq_filter k m hnd]
  exact jsKeys_filter m (fun x => x ≠ k)

theorem nodup_jsKeys_jsDelete (k : String) (m : JsMap α)
    (hnd : (jsKeys m).Nodup) : (jsKeys (jsDelete k m)).Nodup := by
  rw [jsKeys_jsDelete k m hnd]
  exact hnd.filter _

/-- Unfolded characterization of the per-field loop under the assumption
that the interface's lowercased field names are pairwise distinct: each
field is classified against the original column map, and the residual map
keeps exactly the columns matched by no field. -/
theorem fieldLoop_spec (fs : List IfField) (m : JsMap PgColumn)
    (hnd : (fs.map (fun f => (jsToLower f.name))).Nodup)
    (hm : (jsKeys m).Nodup) :
    fieldLoop m fs = ⟨
      (fs.filter (fun f => (jsGet (jsToLower f.name) m).isNone)).map (fun f => f.name),
      (fs.filter (fun f =>
        (jsGet (jsToLower f.name) m).any (fun c => c.nullable ≠ f.nullable))).map (fun f => f.name),
      (fs.filter (fun f =>
        (jsGet (jsToLower f.name) m).any (fun c => (jsToLower c.type) ≠ (jsToLower f.type)))).map (fun f => f.name),
      m.filter (fun e => !(fs.any (fun f => (jsToLower f.name) = e.1)))⟩ := by
  induction fs generalizing m with
  | nil => simp [fieldLoop]
  | cons f fs ih =>
    have hnd₁ : (jsToLower f.name) ∉ fs.map (fun f => (jsToLower f.name)) := by
      have hc := hnd
      simp only [List.map_cons, List.nodup_cons] at hc
      exact hc.1
    have hnd₂ : (fs.map (fun f => (jsToLower f.name))).Nodup := by
      have hc := hnd
      simp only [List.map_cons, List.nodup_cons] at hc
      exact hc.2
    match hget : jsGet (jsToLower f.name) m with
    | none =>
      have hrec := ih m hnd₂ hm
      have hkmem : (jsToLower f.name) ∉ jsKeys m := not_mem_jsKeys_of_jsGet_none _ _ hget
      have hrest : m.filter (fun e => !(fs.any (fun f' => (jsToLower f'.name) = e.1))) =
          m.filter (fun e => !((f :: fs).any (fun f' => (jsToLower f'.name) = e.1))) := by
        apply List.filter_congr
        intro e he
        have hne : ¬ (jsToLower f.name) = e.1 := by
          intro heq
          exact hkmem (heq ▸
            (by simpa [jsKeys] using List.mem_map_of_mem (fun x : String × PgColumn => x.1) he))
        simp [List.any_cons, hne]
      simp only [fieldLoop, hget, hrec, hrest, List.filter_cons, Option.isNone_none,
        Option.any_none, cond_true, cond_false, List.map_cons]
      simp
    | some col =>
      have hm' : (jsKeys (jsDelete (jsToLower f.name) m)).Nodup :=
        nodup_jsKeys_jsDelete _ _ hm
      have hrec := ih (jsDelete (jsToLower f.name) m) hnd₂ hm'
      have hne : ∀ f' ∈ fs, (jsToLower f.name) ≠ (jsToLower f'.name) := by
        intro f' hf' heq
        exact hnd₁ (heq ▸ List.mem_map_of_mem (fun f => (jsToLower f.name)) hf')
      have hmiss : fs.filter (fun f' => (jsGet (jsToLower f'.name) (jsDelete (jsToLower f.name) m)).isNone) =
          fs.filter (fun f' => (jsGet (jsToLower f'.name) m).isNone) := by
        apply List.filter_congr
        intro f' hf'
        rw [jsGet_jsDelete_ne _ _ _ (hne f' hf')]
      have hnulls : fs.filter (fun f' =>
            (jsGet (jsToLower f'.name) (jsDelete (jsToLower f.name) m)).any (fun c => c.nullable ≠ f'.nullable)) =
          fs.filter (fun f' => (jsGet (jsToLower f'.name) m).any (fun c => c.nullable ≠ f'.nullable)) := by
        apply List.filter_congr
        intro f' hf'
        rw [jsGet_jsDelete_ne _ _ _ (hne f' hf')]
      have htypes : fs.filter (fun f' =>
            (jsGet (jsToLower f'.name) (jsDelete (jsToLower f.name) m)).any (fun c => (jsToLower c.type) ≠ (jsToLower f'.type))) =
          fs.filter (fun f' => (jsGet (jsToLower f'.name) m).any (fun c => (jsToLower c.type) ≠ (jsToLower f'.type))) := by
        apply List.filter_congr
        intro f' hf'
        rw [jsGet_jsDelete_ne _ _ _ (hne f' hf')]
      have hrest : (jsDelete (jsToLower f.name) m).filter
            (fun e => !(fs.any (fun f' => (jsToLower f'.name) = e.1))) =
          m.filter (fun e => !((f :: fs).any (fun f' => (jsToLower f'.name) = e.1))) := by
        rw [jsDelete_eq_filter _ _ hm, List.filter_filter]
        apply List.filter_congr
        intro e he
        by_cases heq : (jsToLower f.name) = e.1
        · simp [List.any_cons, heq]
        · have h2 : ¬ e.1 = (jsToLower f.name) := fun h => heq h.symm
          simp [List.any_cons, heq, h2]
      simp only [fieldLoop, hget, hrec, hmiss, hnulls, htypes, hrest,
        List.filter_cons, Option.isNone_some, Option.any_some, cond_false,
        List.map_cons]
      by_cases h1 : col.nullable ≠ f.nullable <;>
        by_cases h2 : (jsToLower col.type) ≠ (jsToLower f.type) <;>
          simp [h1, h2]

/-- The warning emitted for an interface with no matching table. -/
def unmappedWarning (iface : InterfaceDef) : WarningDef :=
  ⟨"interface_unmapped", "Interface " ++ iface.name ++ " has no matching table",
    some iface.source⟩

/-- The warning emitted for a matched interface whose field diff is
non-empty. -/
def mismatchWarning (iface : InterfaceDef) (t : PgTable) : WarningDef :=
  ⟨"interface_field_mismatch",
    "Interface " ++ iface.name ++ " differs from table " ++ t.schema ++ "." ++ t.name,
    some iface.source⟩

/-- Processing of a single interface inside the `interfaces.map` callback of
`mapInterfaces` (extract.ts lines 58-108), returning the rewritten
interface and the warnings pushed for it. -/
def mapOneInterface (tables : List PgTable) (iface : InterfaceDef) :
    InterfaceDef × List WarningDef :=
  match tables.find? (fun t => (jsToLower t.name) = (jsToLower iface.name)) with
  | some mtch =>
    let tableCols := lowercaseMap (fun c : PgColumn => c.name) mtch.columns
    let r := fieldLoop tableCols iface.fields
    let extraInTable := jsKeys r.rest
    let fd : FieldDiff := ⟨r.missing, extraInTable, r.nulls, r.types⟩
    let ws : List WarningDef :=
      if !r.missing.isEmpty || !extraInTable.isEmpty ||
         !r.nulls.isEmpty || !r.types.isEmpty
      then [mismatchWarning iface mtch] else []
    ({ iface with mappedTo := some ⟨mtch.name, mtch.schema, (9 : ℚ) / 10, fd⟩ }, ws)
  | none => ({ iface with mappedTo := none }, [unmappedWarning iface])

/-- `mapInterfaces` of extract.ts: map over the interfaces in order,
accumulating the pushed warnings. -/
def mapInterfaces (interfaces : List InterfaceDef) (tables : List PgTable) :
    List InterfaceDef × List WarningDef :=
  match interfaces with
  | [] => ([], [])
  | i :: rest =>
    let r := mapOneInterface tables i
    let rs := mapInterfaces rest tables
    (r.1 :: rs.1, r.2 ++ rs.2)

theorem mapInterfaces_fst (interfaces : List InterfaceDef) (tables : List PgTable) :
    (mapInterfaces interfaces tables).1 =
      interfaces.map (fun i => (mapOneInterface tables i).1) := by
  induction interfaces with
  | nil => rfl
  | cons i rest ih => simp [mapInterfaces, ih]

theorem mapInterfaces_snd (interfaces : List InterfaceDef) (tables : List PgTable) :
    (mapInterfaces interfaces tables).2 =
      (interfaces.map (fun i => (mapOneInterface tables i).2)).flatten := by
  induction interfaces with
  | nil => rfl
  | cons i rest ih => simp [mapInterfaces, ih]

theorem mapOneInterface_fst (tables : List PgTable) (i : InterfaceDef) :
    (mapOneInterface tables i).1 =
      { i with mappedTo := ((mapOneInterface tables i).1).mappedTo } := by
  cases hf : tables.find? (fun t => (jsToLower t.name) = (jsToLower i.name)) <;>
    simp [mapOneInterface, hf]

/-- The `public.users` table with columns `id` (text, NOT NULL) and `email`
(text, nullable), used as concrete input for the mapper claims. -/
def usersTable2 : PgTable :=
  ⟨"users", "public", none,
    [⟨"id", "text", false, none, false, false, false, none⟩,
     ⟨"email", "text", true, none, false, false, false, none⟩],
    none, [], [], [], none⟩

/-- Interface `Users` with fields `id: string` and `age?: number`. -/
def usersIface : InterfaceDef :=
  ⟨"Users", "x.ts:2", [⟨"id", "string", false⟩, ⟨"age", "number", true⟩], none⟩

/-- Interface `Widget`, matching no table. -/
def widgetIface : InterfaceDef := ⟨"Widget", "w.ts:3", [], none⟩

/-- A table whose only column has an upper-case letter in its name. -/
def tableT : PgTable :=
  ⟨"T", "public", none, [⟨"Email", "text", true, none, false, false, false, none⟩],
    none, [], [], [], none⟩

/-- An interface with no fields matching table `T` by name. -/
def ifaceT : InterfaceDef := ⟨"T", "x.ts:1", [], none⟩

/-- C4 (counterexample): for table `T` with single column `Email` and a
matching interface with no fields, `extraInTable` holds the lowercased map
key `"email"`, not the column's name `"Email"`, so the unconsumed column's
name is not an element of `extraInTable`. -/
theorem claim_C4_counterexample :
    (mapInterfaces [ifaceT] [tableT]).1.map
        (fun d => d.mappedTo.map (fun mt => mt.fieldDiff.extraInTable)) =
      [some ["email"]] ∧
    tableT.columns.map (fun c => c.name) = ["Email"] ∧
    ¬ ("Email" ∈ ["email"]) := by
  refine ⟨by decide, by decide, by decide⟩

/-- C4 (amended): for a matched interface whose lowercased field names are
pairwise distinct, the field diff is computed against the lowercase-keyed
column map: fields whose lookup fails go to `missingInTable`, fields whose
column differs in nullability (resp. case-insensitive type text) go to
`nullableMismatches` (resp. `typeMismatches`), and `extraInTable` holds the
lowercased keys of the columns consumed by no field. -/
theorem claim_C4_fieldDiff (interfaces : List InterfaceDef) (tables : List PgTable)
    (i : InterfaceDef) (t : PgTable)
    (hfind : tables.find? (fun t => (jsToLower t.name) = (jsToLower i.name)) = some t)
    (hnd : (i.fields.map (fun f => (jsToLower f.name))).Nodup) :
    (mapInterfaces interfaces tables).1 =
      interfaces.map (fun j => (mapOneInterface tables j).1) ∧
    ∃ fd : FieldDiff,
      ((mapOneInterface tables i).1).mappedTo =
        some ⟨t.name, t.schema, (9 : ℚ) / 10, fd⟩ ∧
      fd.missingInTable = (i.fields.filter (fun f =>
        (jsGet (jsToLower f.name) (lowercaseMap (fun c : PgColumn => c.name) t.columns)).isNone)).map
          (fun f => f.name) ∧
      fd.nullableMismatches = (i.fields.filter (fun f =>
        (jsGet (jsToLower f.name) (lowercaseMap (fun c : PgColumn => c.name) t.columns)).any
          (fun c => c.nullable ≠ f.nullable))).map (fun f => f.name) ∧
      fd.typeMismatches = (i.fields.filter (fun f =>
        (jsGet (jsToLower f.name) (lowercaseMap (fun c : PgColumn => c.name) t.columns)).any
          (fun c => (jsToLower c.type) ≠ (jsToLower f.type)))).map (fun f => f.name) ∧
      fd.extraInTable = (jsKeys (lowercaseMap (fun c : PgColumn => c.name) t.columns)).filter
        (fun k => !(i.fields.any (fun f => (jsToLower f.name) = k))) := by
  refine ⟨mapInterfaces_fst interfaces tables, ?_⟩
  have hndm : (jsKeys (lowercaseMap (fun c : PgColumn => c.name) t.columns)).Nodup :=
    nodup_jsKeys_jsOfList _ _
  simp only [mapOneInterface, hfind]
  rw [fieldLoop_spec i.fields _ hnd hndm]
  exact ⟨_, rfl, rfl, rfl, rfl,
    jsKeys_filter _ (fun k => !(i.fields.any (fun f => (jsToLower f.name) = k)))⟩

/-- C4 (witness): the amended theorem applied to interface `Users` against
table `public.users`. -/
theorem claim_C4_witness :
    ∃ fd : FieldDiff,
      ((mapOneInterface [usersTable2] usersIface).1).mappedTo =
        some ⟨usersTable2.name, usersTable2.schema, (9 : ℚ) / 10, fd⟩ ∧
      fd.missingInTable = (usersIface.fields.filter (fun f =>
        (jsGet (jsToLower f.name) (lowercaseMap (fun c : PgColumn => c.name) usersTable2.columns)).isNone)).map
          (fun f => f.name) ∧
      fd.nullableMismatches = (usersIface.fields.filter (fun f =>
        (jsGet (jsToLower f.name) (lowercaseMap (fun c : PgColumn => c.name) usersTable2.columns)).any
          (fun c => c.nullable ≠ f.nullable))).map (fun f => f.name) ∧
      fd.typeMismatches = (usersIface.fields.filter (fun f =>
        (jsGet (jsToLower f.name) (lowercaseMap (fun c : PgColumn => c.name) usersTable2.columns)).any
          (fun c => (jsToLower c.type) ≠ (jsToLower f.type)))).map (fun f => f.name) ∧
      fd.extraInTable = (jsKeys (lowercaseMap (fun c : PgColumn => c.name) usersTable2.columns)).filter
        (fun k => !(usersIface.fields.any (fun f => (jsToLower f.name) = k))) :=
  (claim_C4_fieldDiff [usersIface] [usersTable2] usersIface usersTable2
    (by decide) (by decide)).2

/-- C5: `mapInterfaces` is total and its warnings are exactly the per-
interface warnings in order; a matched interface contributes one
field-mismatch warning (with the interface's source locator) precisely when
some diff list is non-empty, and an unmatched interface has `mappedTo`
absent and contributes exactly one unmapped warning. -/
theorem claim_C5_warnings (interfaces : List InterfaceDef) (tables : List PgTable) :
    (mapInterfaces interfaces tables).2 =
      (interfaces.map (fun i => (mapOneInterface tables i).2)).flatten ∧
    ∀ i : InterfaceDef,
      (∀ t : PgTable, tables.find? (fun t => (jsToLower t.name) = (jsToLower i.name)) = some t →
        ∃ fd : FieldDiff,
          ((mapOneInterface tables i).1).mappedTo =
            some ⟨t.name, t.schema, (9 : ℚ) / 10, fd⟩ ∧
          (mapOneInterface tables i).2 =
            (if fd.missingInTable ≠ [] ∨ fd.extraInTable ≠ [] ∨
                fd.nullableMismatches ≠ [] ∨ fd.typeMismatches ≠ []
             then [⟨"interface_field_mismatch",
                    "Interface " ++ i.name ++ " differs from table " ++
                      t.schema ++ "." ++ t.name,
                    some i.source⟩]
             else [])) ∧
      (tables.find? (fun t => (jsToLower t.name) = (jsToLower i.name)) = none →
        ((mapOneInterface tables i).1).mappedTo = none ∧
        (mapOneInterface tables i).2 =
          [⟨"interface_unmapped",
            "Interface " ++ i.name ++ " has no matching table", some i.source⟩]) := by
  refine ⟨mapInterfaces_snd interfaces tables, ?_⟩
  intro i
  constructor
  · intro t hfind
    simp only [mapOneInterface, hfind]
    refine ⟨_, rfl, ?_⟩
    have hiff : ((!(fieldLoop (lowercaseMap (fun c : PgColumn => c.name) t.columns) i.fields).missing.isEmpty ||
        !(jsKeys (fieldLoop (lowercaseMap (fun c : PgColumn => c.name) t.columns) i.fields).rest).isEmpty ||
        !(fieldLoop (lowercaseMap (fun c : PgColumn => c.name) t.columns) i.fields).nulls.isEmpty ||
        !(fieldLoop (lowercaseMap (fun c : PgColumn => c.name) t.columns) i.fields).types.isEmpty) = true) ↔
        ((fieldLoop (lowercaseMap (fun c : PgColumn => c.name) t.columns) i.fields).missing ≠ [] ∨
         (jsKeys (fieldLoop (lowercaseMap (fun c : PgColumn => c.name) t.columns) i.fields).rest) ≠ [] ∨
         (fieldLoop (lowercaseMap (fun c : PgColumn => c.name) t.columns) i.fields).nulls ≠ [] ∨
         (fieldLoop (lowercaseMap (fun c : PgColumn => c.name) t.columns) i.fields).types ≠ []) := by
      simp [List.isEmpty_iff, or_assoc]
    rw [if_congr hiff rfl rfl]
    rfl
  · intro hfind
    simp [mapOneInterface, hfind, unmappedWarning]

/-- C5 (witness): interface `Widget` against the table list
`[public.users]` is unmapped and yields exactly the unmapped warning. -/
theorem claim_C5_witness :
    ((mapOneInterface [usersTable2] widgetIface).1).mappedTo = none ∧
    (mapOneInterface [usersTable2] widgetIface).2 =
      [⟨"interface_unmapped",
        "Interface " ++ widgetIface.name ++ " has no matching table",
        some widgetIface.source⟩] :=
  ((claim_C5_warnings [widgetIface] [usersTable2]).2 widgetIface).2 (by decide)

/-- C10: `mapInterfaces` returns one output per input, in order, each output
identical to its input except for the replaced `mappedTo`; the embedding is
a pure function, so the inputs are unchanged. -/
theorem claim_C10_frame (interfaces : List InterfaceDef) (tables : List PgTable) :
    (mapInterfaces interfaces tables).1 =
      interfaces.map (fun i => { i with mappedTo := ((mapOneInterface tables i).1).mappedTo }) ∧
    (mapInterfaces interfaces tables).1.map (fun d => (d.name, d.source, d.fields)) =
      interfaces.map (fun d => (d.name, d.source, d.fields)) ∧
    (mapInterfaces interfaces tables).1.length = interfaces.length := by
  have h1 : (mapInterfaces interfaces tables).1 =
      interfaces.map (fun i => { i with mappedTo := ((mapOneInterface tables i).1).mappedTo }) := by
    rw [mapInterfaces_fst]
    apply List.map_congr_left
    intro i _
    exact mapOneInterface_fst tables i
  refine ⟨h1, ?_, ?_⟩
  · rw [h1, List.map_map]
    rfl
  · rw [h1, List.length_map]

/-- C3: `diffSchemas` emits a breaking entry exactly when a table present in
both snapshots has a column that is removed, tightened from nullable to NOT
NULL, or changes its type text; additions and relaxations never contribute.
On the spec's concrete scenario (`public.users.email` goes NOT NULL) the
report has exactly one breaking entry and the expected `columnChanges`. -/
theorem claim_C3_breaking (a b : SchemaExport) (e : String) :
    (e ∈ (diffSchemas a b).breaking ↔ BreakingEntrySpec a b e) ∧
    (diffSchemas snapUsersA snapUsersB).breaking =
      ["Column public.users.email changed to NOT NULL"] ∧
    (diffSchemas snapUsersA snapUsersB).tables.columnChanges =
      [⟨"public.users", [], [], ["email"]⟩] :=
  ⟨mem_breaking_iff a b e, by decide, by decide⟩

/-- C7: the diff is symmetric on entity key lists (hence on key sets):
`diff(A,B).added = diff(B,A).removed` and vice versa, for every entity kind
(tables, enums, indexes, relationships, interfaces). -/
theorem claim_C7_diff_symmetry (a b : SchemaExport) :
    (diffSchemas a b).tables.added = (diffSchemas b a).tables.removed ∧
    (diffSchemas a b).tables.removed = (diffSchemas b a).tables.added ∧
    (diffSchemas a b).enums.added = (diffSchemas b a).enums.removed ∧
    (diffSchemas a b).enums.removed = (diffSchemas b a).enums.added ∧
    (diffSchemas a b).indexes.added = (diffSchemas b a).indexes.removed ∧
    (diffSchemas a b).indexes.removed = (diffSchemas b a).indexes.added ∧
    (diffSchemas a b).relationships.added = (diffSchemas b a).relationships.removed ∧
    (diffSchemas a b).relationships.removed = (diffSchemas b a).relationships.added ∧
    (diffSchemas a b).interfaces.added = (diffSchemas b a).interfaces.removed ∧
    (diffSchemas a b).interfaces.removed = (diffSchemas b a).interfaces.added :=
  ⟨rfl, rfl, rfl, rfl, rfl, rfl, rfl, rfl, rfl, rfl⟩

/-!
Section: Snapshot normalizer (`extractSchema` of extract.ts)

The catalog SQL queries, connection handling and transaction wrapping are
external collaborators; the embedding covers the pure assembly of the
already-fetched catalog rows (extract.ts lines 190 and 312-474) into a
`SchemaExport`.
-/

/-- The key `${schema}.${name}` used throughout the assembly. -/
def rowKey (schema name : String) : String := schema ++ "." ++ name

/-- `ACTION_MAP[c] || null` of extract.ts. -/
def actionMap (c : String) : Option String :=
  if c = "a" then some "NO ACTION"
  else if c = "r" then some "RESTRICT"
  else if c = "c" then some "CASCADE"
  else if c = "n" then some "SET NULL"
  else if c = "d" then some "SET DEFAULT"
  else none

/-- `normalizeType` of extract.ts. -/
def normalizeType (dataType udtName : String) : String :=
  if dataType = "USER-DEFINED" then udtName else dataType

/-- `normalizeColumns` of extract.ts: a missing array yields `[]`.  (On
untyped rows the source additionally drops non-string elements; on the
typed row model that filter is the identity.) -/
def normalizeColumns : Option (List String) → List String
  | some l => l
  | none => []

/-- A row of the tables query (`information_schema.tables`). -/
structure TableRow where
  table_schema : String
  table_name : String
deriving DecidableEq, Repr

/-- A row of the table-metadata query (`pg_class` comment/row estimate). -/
structure TableMetaRow where
  table_schema : String
  table_name : String
  comment : Option String
  row_estimate : Option Int
deriving DecidableEq, Repr

/-- Value stored in `tableMetaMap`. -/
structure TableMeta where
  comment : Option String
  rowEstimate : Option Int
deriving DecidableEq, Repr

/-- A row of the columns query (`information_schema.columns`). -/
structure ColumnRow where
  table_schema : String
  table_name : String
  column_name : String
  data_type : String
  udt_name : String
  is_nullable : String
  column_default : Option String
  is_generated : String
  description : Option String
deriving DecidableEq, Repr

/-- A row of the constraints query (`pg_constraint`). -/
structure ConstraintRow where
  schema : String
  table : String
  conname : String
  contype : String
  columns : List String
  ref_table : String
  ref_schema : String
  ref_columns : List String
  confupdtype : String
  confdeltype : String
  condef : Option String
deriving DecidableEq, Repr

/-- A row of the indexes query (`pg_index`). -/
structure IndexRow where
  schema : String
  table : String
  name : String
  indisunique : Bool
  indisprimary : Bool
  method : Option String
  definition : Option String
  columns : Option (List String)
deriving DecidableEq, Repr

/-- A row of the enums query (`pg_enum`). -/
structure EnumRow where
  schema : String
  name : String
  values : Option (List String)
  comment : Option String
deriving DecidableEq, Repr

/-- A row of the views query (`information_schema.views`). -/
structure ViewRow where
  table_schema : String
  table_name : String
  view_definition : Option String
deriving DecidableEq, Repr

/-- A row of the view-columns query. -/
structure ViewColumnRow where
  table_schema : String
  table_name : String
  column_name : String
  data_type : String
  udt_name : String
deriving DecidableEq, Repr

/-- The row sets consumed by one normalization call. -/
structure CatalogRows where
  tableRows : List TableRow
  tableMetaRows : List TableMetaRow
  columnRows : List ColumnRow
  constraintRows : List ConstraintRow
  indexRows : List IndexRow
  enumRows : List EnumRow
  viewRows : List ViewRow
  viewColumnRows : List ViewColumnRow
deriving DecidableEq, Repr

/-- `tableMetaMap` construction (extract.ts lines 178-188). -/
def buildTableMetaMap (rows : List TableMetaRow) : JsMap TableMeta :=
  rows.foldl (fun m row =>
    jsSet (rowKey row.table_schema row.table_name)
      ⟨row.comment, row.row_estimate⟩ m) []

/-- The fresh `PgTable` built for one table row (extract.ts lines 313-329). -/
def mkTableFromRow (metaMap : JsMap TableMeta) (row : TableRow) : PgTable :=
  let meta := (jsGet (rowKey row.table_schema row.table_name) metaMap).getD ⟨none, none⟩
  ⟨row.table_name, row.table_schema, meta.comment, [], none, [], [], [], meta.rowEstimate⟩

/-- `tablesMap` construction (extract.ts lines 312-330): one `Map.set` per
table row, so a duplicate `(schema, name)` key silently overwrites. -/
def buildTablesMap (tableRows : List TableRow) (metaMap : JsMap TableMeta) : JsMap PgTable :=
  tableRows.foldl (fun m row =>
    jsSet (rowKey row.table_schema row.table_name) (mkTableFromRow metaMap row) m) []

/-- Column attachment (extract.ts lines 332-347): push each column row onto
its table, ignoring rows whose table key is unknown. -/
def attachColumns (columnRows : List ColumnRow) (m : JsMap PgTable) : JsMap PgTable :=
  columnRows.foldl (fun m row =>
    jsUpdate (rowKey row.table_schema row.table_name)
      (fun table => { table with columns := table.columns ++
        [⟨row.column_name, normalizeType row.data_type row.udt_name,
          decide (row.is_nullable = "YES"), row.column_default, false, false,
          decide (row.is_generated = "ALWAYS"), row.description⟩] }) m) m

/-- `classifyRelationship` of extract.ts (lines 41-51). -/
def classifyRelationship (fromColumns : List String)
    (tableUniques : List NamedColumns) (pkColumns : List String) : RelType :=
  let colsKey := String.intercalate "|" fromColumns
  let hasUnique := tableUniques.any (fun u => decide (String.intercalate "|" u.columns = colsKey))
  let isPk := decide (String.intercalate "|" pkColumns = colsKey)
  if hasUnique || isPk then RelType.one_to_one else RelType.many_to_one

/-- Processing of one constraint row (extract.ts lines 351-410): attach the
constraint to its table (skipping unknown keys), back-fill column flags for
primary-key and unique rows, and derive a relationship for foreign-key rows
from the primary key and unique constraints attached so far. -/
def processConstraintRow (st : JsMap PgTable × List PgRelationship)
    (row : ConstraintRow) : JsMap PgTable × List PgRelationship :=
  let key := rowKey row.schema row.table
  match jsGet key st.1 with
  | none => st
  | some table =>
    let table :=
      if row.contype = "p" then
        let cols := normalizeColumns (some row.columns)
        { table with
          primaryKey := some ⟨row.conname, cols⟩,
          columns := table.columns.map (fun c =>
            if c.name ∈ cols then { c with isPrimaryKey := true } else c) }
      else table
    let table :=
      if row.contype = "u" then
        let cols := normalizeColumns (some row.columns)
        { table with
          uniques := table.uniques ++ [⟨row.conname, cols⟩],
          columns := table.columns.map (fun c =>
            if c.name ∈ cols then { c with isUnique := true } else c) }
      else table
    let table :=
      if row.contype = "c" then
        { table with checks := table.checks ++ [⟨row.conname, row.condef.getD ""⟩] }
      else table
    if row.contype = "f" then
      let fk : PgForeignKey :=
        ⟨row.conname, normalizeColumns (some row.columns), row.ref_table, row.ref_schema,
         normalizeColumns (some row.ref_columns),
         actionMap row.confupdtype, actionMap row.confdeltype⟩
      let table := { table with foreignKeys := table.foreignKeys ++ [fk] }
      let pkCols := normalizeColumns (table.primaryKey.map (fun pk => pk.columns))
      let relType := classifyRelationship fk.columns table.uniques pkCols
      (jsSet key table st.1,
       st.2 ++ [⟨table.name ++ "_" ++ fk.refTable, relType,
                 ⟨table.name, table.schema, fk.columns⟩,
                 ⟨fk.refTable, fk.refSchema, fk.refColumns⟩, fk.name⟩])
    else (jsSet key table st.1, st.2)

/-- The constraint loop of extract.ts lines 349-410. -/
def attachConstraints (rows : List ConstraintRow) (m : JsMap PgTable) :
    JsMap PgTable × List PgRelationship :=
  rows.foldl processConstraintRow (m, [])

/-- Index rows mapped to `PgIndex` (extract.ts lines 412-421). -/
def mkIndexes (rows : List IndexRow) : List PgIndex :=
  rows.map (fun row => ⟨row.name, row.schema, row.table, row.columns.getD [],
    row.indisunique, row.indisprimary, row.method, row.definition⟩)

/-- Enum rows mapped to `PgEnum` (extract.ts lines 423-428). -/
def mkEnums (rows : List EnumRow) : List PgEnum :=
  rows.map (fun row => ⟨row.name, row.schema, row.values.getD [], row.comment⟩)

/-- View rows mapped to `PgView` with empty columns (extract.ts 430-435). -/
def mkViews (rows : List ViewRow) : List PgView :=
  rows.map (fun row => ⟨row.table_name, row.table_schema, row.view_definition, []⟩)

/-- View-column attachment (extract.ts lines 440-448). -/
def attachViewColumns (rows : List ViewColumnRow) (vm : JsMap PgView) : JsMap PgView :=
  rows.foldl (fun vm row =>
    jsUpdate (rowKey row.table_schema row.table_name)
      (fun v => { v with columns := v.columns ++
        [(row.column_name, normalizeType row.data_type row.udt_name)] }) vm) vm

/-- The pure row-assembly of `extractSchema` (extract.ts line 190 and lines
312-474): drop excluded tables, build the table map, attach columns and
constraints, derive relationships, map indexes/enums/views, attach view
columns, and run the interface mapper.  (In the source the `views` array
aliases the objects mutated through `viewsMap`; with the unique
`(schema, name)` view keys the catalog delivers, reading each view back
from the map reproduces that mutation.) -/
def extractSchemaRows (excludeTables : List String) (rows : CatalogRows)
    (interfaces : List InterfaceDef) : SchemaExport :=
  let metaMap := buildTableMetaMap rows.tableMetaRows
  let tableRows := rows.tableRows.filter (fun row => !(excludeTables.contains row.table_name))
  let tablesMap := attachColumns rows.columnRows (buildTablesMap tableRows metaMap)
  let tc := attachConstraints rows.constraintRows tablesMap
  let indexes := mkIndexes rows.indexRows
  let enums := mkEnums rows.enumRows
  let views0 := mkViews rows.viewRows
  let viewsMap := attachViewColumns rows.viewColumnRows
    (jsOfList (fun v : PgView => rowKey v.schema v.name) views0)
  let views := views0.map (fun v => (jsGet (rowKey v.schema v.name) viewsMap).getD v)
  let tables := tc.1.map (fun e => e.2)
  let mi := mapInterfaces interfaces tables
  ⟨enums, tables, views, tc.2, indexes, mi.1, mi.2⟩

/-- Two table rows with the same `(schema, name)` key. -/
def dupRows : CatalogRows := ⟨[⟨"s", "t"⟩, ⟨"s", "t"⟩], [], [], [], [], [], [], []⟩

/-- C1 (counterexample): on a table row set with a duplicate `(schema, name)`
key the assembly does not fail — it returns a complete snapshot in which the
duplicate has been collapsed to a single table (the claim says the call must
propagate an error and produce no snapshot). -/
theorem claim_C1_counterexample :
    dupRows.tableRows = [⟨"s", "t"⟩, ⟨"s", "t"⟩] ∧
    (extractSchemaRows [] dupRows []).tables =
      [⟨"t", "s", none, [], none, [], [], [], none⟩] :=
  ⟨by decide, by decide⟩

/-- C1 (amended): the table assembly never fails on duplicate keys; the
`Map.set`-based construction silently keeps the last row with each key
(last write wins) and the assembled map has pairwise-distinct keys. -/
theorem claim_C1_lastWins (tableRows : List TableRow) (metaMap : JsMap TableMeta)
    (k : String) :
    (jsKeys (buildTablesMap tableRows metaMap)).Nodup ∧
    jsGet k (buildTablesMap tableRows metaMap) =
      (tableRows.reverse.find?
        (fun row => rowKey row.table_schema row.table_name = k)).map
          (mkTableFromRow metaMap) := by
  constructor
  · exact nodup_jsKeys_foldl_jsSet_val
      (fun row : TableRow => rowKey row.table_schema row.table_name)
      (mkTableFromRow metaMap) tableRows [] (by simp [jsKeys])
  · have h := jsGet_foldl_jsSet_val
      (fun row : TableRow => rowKey row.table_schema row.table_name)
      (mkTableFromRow metaMap) k tableRows []
    simpa [buildTablesMap, jsGet] using h

/-- The column row of the C2 counterexample. -/
def c2ColRow : ColumnRow := ⟨"s", "t", "i", "text", "text", "YES", none, "NEVER", none⟩

/-- A foreign-key constraint row over column `i`, named to sort before the
primary key. -/
def c2FkRow : ConstraintRow := ⟨"s", "t", "a_fk", "f", ["i"], "r", "s", ["j"], "a", "a", none⟩

/-- The primary-key constraint row over column `i`, arriving after the
foreign-key row. -/
def c2PkRow : ConstraintRow := ⟨"s", "t", "z_pk", "p", ["i"], "", "", [], "", "", none⟩

/-- Catalog rows in which the foreign-key constraint row precedes the
primary-key row of the same table. -/
def c2Rows : CatalogRows := ⟨[⟨"s", "t"⟩], [], [c2ColRow], [c2FkRow, c2PkRow], [], [], [], []⟩

/-- The bare table state used by the C2 witness. -/
def c2Table0 : PgTable := ⟨"t", "s", none, [], none, [], [], [], none⟩

/-- C2 (counterexample): when the foreign-key row arrives before the
primary-key row, the derived relationship is `many_to_one` even though the
foreign key's columns exactly equal the table's final primary-key columns —
the classification is not independent of constraint-row order. -/
theorem claim_C2_counterexample :
    (extractSchemaRows [] c2Rows []).relationships.map (fun r => r.type) =
      [RelType.many_to_one] ∧
    (extractSchemaRows [] c2Rows []).tables.map (fun t => t.primaryKey) =
      [some ⟨"z_pk", ["i"]⟩] ∧
    (extractSchemaRows [] c2Rows []).tables.map
        (fun t => t.foreignKeys.map (fun fk => fk.columns)) = [[["i"]]] :=
  ⟨by decide, by decide, by decide⟩

/-- C2 (amended): `classifyRelationship` yields `one_to_one` exactly when the
joined referencing-column key equals the primary-key joined key or some
unique constraint's joined key (in particular equal primary-key columns give
`one_to_one` and no match gives `many_to_one`); and a foreign-key constraint
row is classified against the primary key and unique constraints attached by
the rows processed *before* it, not against the final constraint state. -/
theorem claim_C2_relationship_rule :
    (∀ (fromColumns pk : List String) (uniques : List NamedColumns),
      (classifyRelationship fromColumns uniques pk = RelType.one_to_one ↔
        (String.intercalate "|" pk = String.intercalate "|" fromColumns ∨
         ∃ u ∈ uniques,
           String.intercalate "|" u.columns = String.intercalate "|" fromColumns)) ∧
      (pk = fromColumns →
        classifyRelationship fromColumns uniques pk = RelType.one_to_one) ∧
      (String.intercalate "|" pk ≠ String.intercalate "|" fromColumns →
        (∀ u ∈ uniques,
          String.intercalate "|" u.columns ≠ String.intercalate "|" fromColumns) →
        classifyRelationship fromColumns uniques pk = RelType.many_to_one)) ∧
    (∀ (st : JsMap PgTable × List PgRelationship) (row : ConstraintRow) (t : PgTable),
      row.contype = "f" →
      jsGet (rowKey row.schema row.table) st.1 = some t →
      (processConstraintRow st row).2 = st.2 ++
        [⟨t.name ++ "_" ++ row.ref_table,
          classifyRelationship row.columns t.uniques
            (normalizeColumns (t.primaryKey.map (fun pk => pk.columns))),
          ⟨t.name, t.schema, row.columns⟩,
          ⟨row.ref_table, row.ref_schema, row.ref_columns⟩, row.conname⟩]) := by
  constructor
  · intro fromColumns pk uniques
    have hiff : classifyRelationship fromColumns uniques pk = RelType.one_to_one ↔
        ((uniques.any fun u =>
            decide (String.intercalate "|" u.columns = String.intercalate "|" fromColumns)) ||
          decide (String.intercalate "|" pk = String.intercalate "|" fromColumns)) = true := by
      simp only [classifyRelationship]
      by_cases hc : ((uniques.any fun u =>
          decide (String.intercalate "|" u.columns = String.intercalate "|" fromColumns)) ||
        decide (String.intercalate "|" pk = String.intercalate "|" fromColumns)) = true
      · simp [hc]
      · simp [hc]
    refine ⟨?_, ?_, ?_⟩
    · rw [hiff]
      simp only [Bool.or_eq_true, List.any_eq_true, decide_eq_true_eq]
      constructor
      · rintro (⟨u, hu, hequ⟩ | hp)
        · exact Or.inr ⟨u, hu, hequ⟩
        · exact Or.inl hp
      · rintro (hp | ⟨u, hu, hequ⟩)
        · exact Or.inr hp
        · exact Or.inl ⟨u, hu, hequ⟩
    · intro hpk
      rw [hiff]
      simp [hpk]
    · intro hpk hu
      have hcond : ((uniques.any fun u =>
          decide (String.intercalate "|" u.columns = String.intercalate "|" fromColumns)) ||
        decide (String.intercalate "|" pk = String.intercalate "|" fromColumns)) = false := by
        simp only [Bool.or_eq_false_iff, decide_eq_false_iff_not, List.any_eq_false]
        exact ⟨fun u hmem => by simpa using hu u hmem, hpk⟩
      simp [classifyRelationship, hcond]
  · intro st row t hf hget
    simp [processConstraintRow, hget, hf, normalizeColumns]

theorem mem_jsSet (k : String) (v : α) (m : JsMap α) (p : String × α)
    (hp : p ∈ jsSet k v m) : p = (k, v) ∨ p ∈ m := by
  induction m with
  | nil => simpa [jsSet] using hp
  | cons q rest ih =>
    obtain ⟨k₀, v₀⟩ := q
    by_cases h₀ : k₀ = k
    · subst h₀
      simp only [jsSet, if_pos rfl] at hp
      rcases List.mem_cons.mp hp with h | h
      · exact Or.inl h
      · exact Or.inr (List.mem_cons_of_mem _ h)
    · simp only [jsSet, if_neg h₀] at hp
      rcases List.mem_cons.mp hp with h | h
      · exact Or.inr (by simp [h])
      · rcases ih h with h' | h'
        · exact Or.inl h'
        · exact Or.inr (List.mem_cons_of_mem _ h')

/-- Per-column flag contribution of a single constraint row for the table at
key `k` (extract.ts lines 356-370). -/
def flagStep (r : ConstraintRow) (k : String) (c : PgColumn) : PgColumn :=
  { c with
    isPrimaryKey := c.isPrimaryKey ||
      (decide (r.contype = "p") && decide (rowKey r.schema r.table = k) &&
        decide (c.name ∈ r.columns)),
    isUnique := c.isUnique ||
      (decide (r.contype = "u") && decide (rowKey r.schema r.table = k) &&
        decide (c.name ∈ r.columns)) }

/-- Cumulative flag contribution of a list of constraint rows. -/
def flagFold (rows : List ConstraintRow) (k : String) (c : PgColumn) : PgColumn :=
  { c with
    isPrimaryKey := c.isPrimaryKey ||
      rows.any (fun r => decide (r.contype = "p") && decide (rowKey r.schema r.table = k) &&
        decide (c.name ∈ r.columns)),
    isUnique := c.isUnique ||
      rows.any (fun r => decide (r.contype = "u") && decide (rowKey r.schema r.table = k) &&
        decide (c.name ∈ r.columns)) }

theorem flagStep_id (r : ConstraintRow) (k : String) (c : PgColumn)
    (h : rowKey r.schema r.table ≠ k) : flagStep r k c = c := by
  cases c
  simp [flagStep, h]

theorem flagStep_id_of_contype (r : ConstraintRow) (k : String) (c : PgColumn)
    (hp : ¬ r.contype = "p") (hu : ¬ r.contype = "u") : flagStep r k c = c := by
  cases c
  simp [flagStep, hp, hu]

theorem map_flagStep_id (r : ConstraintRow) (k : String) (cols : List PgColumn)
    (h : ∀ c ∈ cols, flagStep r k c = c) : cols.map (flagStep r k) = cols := by
  rw [List.map_congr_left h]
  exact List.map_id _

theorem jsGet_processConstraintRow_columns
    (st : JsMap PgTable × List PgRelationship) (r : ConstraintRow) (k : String) :
    (jsGet k (processConstraintRow st r).1 = none ∧ jsGet k st.1 = none) ∨
    ∃ t0 t1, jsGet k st.1 = some t0 ∧
      jsGet k (processConstraintRow st r).1 = some t1 ∧
      t1.name = t0.name ∧ t1.schema = t0.schema ∧
      t1.columns = t0.columns.map (flagStep r k) := by
  match hg : jsGet (rowKey r.schema r.table) st.1 with
  | none =>
    have hid : processConstraintRow st r = st := by
      simp [processConstraintRow, hg]
    rw [hid]
    match hk : jsGet k st.1 with
    | none => exact Or.inl ⟨rfl, rfl⟩
    | some t0 =>
      have hne : rowKey r.schema r.table ≠ k := by
        intro he
        rw [he, hk] at hg
        cases hg
      refine Or.inr ⟨t0, t0, rfl, rfl, rfl, rfl, ?_⟩
      exact (map_flagStep_id r k t0.columns (fun c _ => flagStep_id r k c hne)).symm
  | some table =>
    by_cases hp : r.contype = "p"
    · have hu : ¬ r.contype = "u" := by rw [hp]; decide
      have hc' : ¬ r.contype = "c" := by rw [hp]; decide
      have hf : ¬ r.contype = "f" := by rw [hp]; decide
      have hres : processConstraintRow st r =
          (jsSet (rowKey r.schema r.table)
            { table with
              primaryKey := some ⟨r.conname, r.columns⟩,
              columns := table.columns.map (fun c =>
                if c.name ∈ r.columns then { c with isPrimaryKey := true } else c) }
            st.1, st.2) := by
        simp [processConstraintRow, hg, hp, hu, hc', hf, normalizeColumns]
      rw [hres]
      by_cases hkk : rowKey r.schema r.table = k
      · refine Or.inr ⟨table,
          { table with
            primaryKey := some ⟨r.conname, r.columns⟩,
            columns := table.columns.map (fun c =>
              if c.name ∈ r.columns then { c with isPrimaryKey := true } else c) },
          by rw [← hkk]; exact hg,
          by simp [jsGet_jsSet, hkk], rfl, rfl, ?_⟩
        apply List.map_congr_left
        intro c _
        by_cases hmem : c.name ∈ r.columns
        · obtain ⟨nm, ty, nl, df, ipk, iuq, ig, cm⟩ := c
          simp [flagStep, hp, hkk, hmem]
        · obtain ⟨nm, ty, nl, df, ipk, iuq, ig, cm⟩ := c
          simp [flagStep, hp, hkk, hmem]
      · match hk : jsGet k st.1 with
        | none => exact Or.inl ⟨by simp [jsGet_jsSet, hkk, hk], rfl⟩
        | some t0 =>
          refine Or.inr ⟨t0, t0, rfl, by simp [jsGet_jsSet, hkk, hk], rfl, rfl, ?_⟩
          exact (map_flagStep_id r k t0.columns (fun c _ => flagStep_id r k c hkk)).symm
    · by_cases hu : r.contype = "u"
      · have hc' : ¬ r.contype = "c" := by rw [hu]; decide
        have hf : ¬ r.contype = "f" := by rw [hu]; decide
        have hres : processConstraintRow st r =
            (jsSet (rowKey r.schema r.table)
              { table with
                uniques := table.uniques ++ [⟨r.conname, r.columns⟩],
                columns := table.columns.map (fun c =>
                  if c.name ∈ r.columns then { c with isUnique := true } else c) }
              st.1, st.2) := by
          simp [processConstraintRow, hg, hp, hu, hc', hf, normalizeColumns]
        rw [hres]
        by_cases hkk : rowKey r.schema r.table = k
        · refine Or.inr ⟨table,
            { table with
              uniques := table.uniques ++ [⟨r.conname, r.columns⟩],
              columns := table.columns.map (fun c =>
                if c.name ∈ r.columns then { c with isUnique := true } else c) },
            by rw [← hkk]; exact hg,
            by simp [jsGet_jsSet, hkk], rfl, rfl, ?_⟩
          apply List.map_congr_left
          intro c _
          by_cases hmem : c.name ∈ r.columns
          · obtain ⟨nm, ty, nl, df, ipk, iuq, ig, cm⟩ := c
            simp [flagStep, hp, hu, hkk, hmem]
          · obtain ⟨nm, ty, nl, df, ipk, iuq, ig, cm⟩ := c
            simp [flagStep, hp, hu, hkk, hmem]
        · match hk : jsGet k st.1 with
          | none => exact Or.inl ⟨by simp [jsGet_jsSet, hkk, hk], rfl⟩
          | some t0 =>
            refine Or.inr ⟨t0, t0, rfl, by simp [jsGet_jsSet, hkk, hk], rfl, rfl, ?_⟩
            exact (map_flagStep_id r k t0.columns (fun c _ => flagStep_id r k c hkk)).symm
      · have hshape : ∃ t' : PgTable,
            (processConstraintRow st r).1 = jsSet (rowKey r.schema r.table) t' st.1 ∧
            t'.columns = table.columns ∧ t'.name = table.name ∧ t'.schema = table.schema := by
          by_cases hc' : r.contype = "c"
          · have hf : ¬ r.contype = "f" := by rw [hc']; decide
            exact ⟨{ table with checks := table.checks ++ [⟨r.conname, r.condef.getD ""⟩] },
              by simp [processConstraintRow, hg, hp, hu, hc', hf], rfl, rfl, rfl⟩
          · by_cases hf : r.contype = "f"
            · exact ⟨{ table with foreignKeys := table.foreignKeys ++
                  [⟨r.conname, r.columns, r.ref_table, r.ref_schema, r.ref_columns,
                    actionMap r.confupdtype, actionMap r.confdeltype⟩] },
                by simp [processConstraintRow, hg, hp, hu, hc', hf, normalizeColumns], rfl, rfl, rfl⟩
            · exact ⟨table, by simp [processConstraintRow, hg, hp, hu, hc', hf], rfl, rfl, rfl⟩
        obtain ⟨t', h1, hcols, hnm, hsc⟩ := hshape
        rw [h1]
        by_cases hkk : rowKey r.schema r.table = k
        · refine Or.inr ⟨table, t', by rw [← hkk]; exact hg,
            by simp [jsGet_jsSet, hkk], hnm, hsc, ?_⟩
          rw [hcols]
          exact (map_flagStep_id r k table.columns
            (fun c _ => flagStep_id_of_contype r k c hp hu)).symm
        · match hk : jsGet k st.1 with
          | none => exact Or.inl ⟨by simp [jsGet_jsSet, hkk, hk], rfl⟩
          | some t0 =>
            refine Or.inr ⟨t0, t0, rfl, by simp [jsGet_jsSet, hkk, hk], rfl, rfl, ?_⟩
            exact (map_flagStep_id r k t0.columns (fun c _ => flagStep_id r k c hkk)).symm

theorem jsGet_foldl_processConstraintRow (rows : List ConstraintRow)
    (st : JsMap PgTable × List PgRelationship) (k : String) (t' : PgTable)
    (h : jsGet k (rows.foldl processConstraintRow st).1 = some t') :
    ∃ t0, jsGet k st.1 = some t0 ∧ t'.name = t0.name ∧ t'.schema = t0.schema ∧
      t'.columns = t0.columns.map (flagFold rows k) := by
  induction rows generalizing st with
  | nil =>
    refine ⟨t', h, rfl, rfl, ?_⟩
    symm
    have hid : ∀ c ∈ t'.columns, flagFold [] k c = c := by
      intro c _
      obtain ⟨nm, ty, nl, df, ipk, iuq, ig, cm⟩ := c
      simp [flagFold]
    rw [List.map_congr_left hid]
    exact List.map_id _
  | cons r rows ih =>
    simp only [List.foldl_cons] at h
    obtain ⟨t1, h1, hn, hs, hcols⟩ := ih (processConstraintRow st r) h
    rcases jsGet_processConstraintRow_columns st r k with
      ⟨hnone, _⟩ | ⟨t0, t1', hget0, hget1, hn', hs', hcols'⟩
    · rw [h1] at hnone
      cases hnone
    · rw [h1] at hget1
      injection hget1 with he
      subst he
      refine ⟨t0, hget0, hn.trans hn', hs.trans hs', ?_⟩
      rw [hcols, hcols', List.map_map]
      apply List.map_congr_left
      intro c _
      obtain ⟨nm, ty, nl, df, ipk, iuq, ig, cm⟩ := c
      simp [flagFold, flagStep, List.any_cons, Bool.or_assoc]

theorem jsKeys_processConstraintRow (st : JsMap PgTable × List PgRelationship)
    (r : ConstraintRow) :
    jsKeys (processConstraintRow st r).1 = jsKeys st.1 := by
  match hg : jsGet (rowKey r.schema r.table) st.1 with
  | none => simp [processConstraintRow, hg]
  | some table =>
    have hhas : jsHas (rowKey r.schema r.table) st.1 = true := by simp [jsHas, hg]
    by_cases hf : r.contype = "f" <;>
      simp [processConstraintRow, hg, hf, jsKeys_jsSet, hhas]

theorem jsKeys_foldl_processConstraintRow (rows : List ConstraintRow)
    (st : JsMap PgTable × List PgRelationship) :
    jsKeys (rows.foldl processConstraintRow st).1 = jsKeys st.1 := by
  induction rows generalizing st with
  | nil => rfl
  | cons r rows ih =>
    simp only [List.foldl_cons]
    rw [ih (processConstraintRow st r), jsKeys_processConstraintRow]

theorem jsKeys_attachColumns (rows : List ColumnRow) (m : JsMap PgTable) :
    jsKeys (attachColumns rows m) = jsKeys m := by
  induction rows generalizing m with
  | nil => rfl
  | cons row rows ih =>
    have hstep : attachColumns (row :: rows) m =
        attachColumns rows (jsUpdate (rowKey row.table_schema row.table_name)
          (fun table => { table with columns := table.columns ++
            [⟨row.column_name, normalizeType row.data_type row.udt_name,
              decide (row.is_nullable = "YES"), row.column_default, false, false,
              decide (row.is_generated = "ALWAYS"), row.description⟩] }) m) := rfl
    rw [hstep, ih, jsKeys_jsUpdate]

theorem kc_buildTablesMap (tableRows : List TableRow) (metaMap : JsMap TableMeta) :
    ∀ p ∈ buildTablesMap tableRows metaMap, p.1 = rowKey p.2.schema p.2.name := by
  intro p hp
  rcases mem_foldl_jsSet_val
    (fun row : TableRow => rowKey row.table_schema row.table_name)
    (mkTableFromRow metaMap) tableRows [] p hp with h | ⟨row, _, hrow⟩
  · cases h
  · subst hrow
    simp [mkTableFromRow, rowKey]

theorem cols_buildTablesMap (tableRows : List TableRow) (metaMap : JsMap TableMeta) :
    ∀ p ∈ buildTablesMap tableRows metaMap, p.2.columns = [] := by
  intro p hp
  rcases mem_foldl_jsSet_val
    (fun row : TableRow => rowKey row.table_schema row.table_name)
    (mkTableFromRow metaMap) tableRows [] p hp with h | ⟨row, _, hrow⟩
  · cases h
  · subst hrow
    simp [mkTableFromRow]

theorem kc_attachColumns (rows : List ColumnRow) (m : JsMap PgTable)
    (h0 : ∀ p ∈ m, p.1 = rowKey p.2.schema p.2.name) :
    ∀ p ∈ attachColumns rows m, p.1 = rowKey p.2.schema p.2.name := by
  induction rows generalizing m with
  | nil => exact h0
  | cons row rows ih =>
    simp only [attachColumns, List.foldl_cons]
    apply ih
    intro p hp
    rcases mem_jsUpdate _ _ _ p hp with h | ⟨v, hv, he⟩
    · exact h0 p h
    · rw [he]
      have := h0 (p.1, v) hv
      simpa using this

theorem flags_attachColumns (rows : List ColumnRow) (m : JsMap PgTable)
    (h0 : ∀ p ∈ m, ∀ c ∈ p.2.columns, c.isPrimaryKey = false ∧ c.isUnique = false) :
    ∀ p ∈ attachColumns rows m, ∀ c ∈ p.2.columns,
      c.isPrimaryKey = false ∧ c.isUnique = false := by
  induction rows generalizing m with
  | nil => exact h0
  | cons row rows ih =>
    simp only [attachColumns, List.foldl_cons]
    apply ih
    intro p hp c hc
    rcases mem_jsUpdate _ _ _ p hp with h | ⟨v, hv, he⟩
    · exact h0 p h c hc
    · rw [he] at hc
      simp only [List.mem_append, List.mem_singleton] at hc
      rcases hc with hc | hc
      · exact h0 (p.1, v) hv c hc
      · subst hc
        exact ⟨rfl, rfl⟩

/-- Field-flag characterization of the constraint fold, for any starting
table map with coherent keys and all-false column flags. -/
theorem flags_after_constraints (crows : List ConstraintRow) (m0 : JsMap PgTable)
    (hnd0 : (jsKeys m0).Nodup)
    (hkc0 : ∀ p ∈ m0, p.1 = rowKey p.2.schema p.2.name)
    (hfl0 : ∀ p ∈ m0, ∀ c ∈ p.2.columns, c.isPrimaryKey = false ∧ c.isUnique = false)
    (t : PgTable) (c : PgColumn)
    (ht : t ∈ (crows.foldl processConstraintRow (m0, [])).1.map (fun e => e.2))
    (hc : c ∈ t.columns) :
    (c.isPrimaryKey = true ↔ ∃ r ∈ crows, r.contype = "p" ∧
        rowKey r.schema r.table = rowKey t.schema t.name ∧ c.name ∈ r.columns) ∧
    (c.isUnique = true ↔ ∃ r ∈ crows, r.contype = "u" ∧
        rowKey r.schema r.table = rowKey t.schema t.name ∧ c.name ∈ r.columns) := by
  obtain ⟨e, he, het⟩ := List.mem_map.mp ht
  have hndF : (jsKeys (crows.foldl processConstraintRow (m0, [])).1).Nodup := by
    rw [jsKeys_foldl_processConstraintRow]
    exact hnd0
  have hget : jsGet e.1 (crows.foldl processConstraintRow (m0, [])).1 = some t := by
    apply jsGet_of_mem _ _ _ _ hndF
    rw [← het]
    simpa using he
  obtain ⟨t0, hget0, hn, hs, hcols⟩ :=
    jsGet_foldl_processConstraintRow crows _ e.1 t hget
  have hm0 : (e.1, t0) ∈ m0 := mem_of_jsGet _ _ _ hget0
  have hkc : e.1 = rowKey t0.schema t0.name := hkc0 (e.1, t0) hm0
  have hkey : e.1 = rowKey t.schema t.name := by
    rw [hkc, hn, hs]
  rw [hcols] at hc
  obtain ⟨c0, hc0, hcc⟩ := List.mem_map.mp hc
  obtain ⟨hpk0, huq0⟩ := hfl0 (e.1, t0) hm0 c0 hc0
  subst hcc
  obtain ⟨nm, ty, nl, df, ipk, iuq, ig, cm⟩ := c0
  simp only at hpk0 huq0
  subst hpk0
  subst huq0
  constructor
  · simp only [flagFold, Bool.false_or, List.any_eq_true, Bool.and_eq_true,
      decide_eq_true_eq, hkey]
    constructor
    · rintro ⟨r, hr, ⟨h1, h2⟩, h3⟩
      exact ⟨r, hr, h1, h2, h3⟩
    · rintro ⟨r, hr, h1, h2, h3⟩
      exact ⟨r, hr, ⟨h1, h2⟩, h3⟩
  · simp only [flagFold, Bool.false_or, List.any_eq_true, Bool.and_eq_true,
      decide_eq_true_eq, hkey]
    constructor
    · rintro ⟨r, hr, ⟨h1, h2⟩, h3⟩
      exact ⟨r, hr, h1, h2, h3⟩
    · rintro ⟨r, hr, h1, h2, h3⟩
      exact ⟨r, hr, ⟨h1, h2⟩, h3⟩

/-- C8: in the assembled snapshot, a column's `isPrimaryKey` (resp.
`isUnique`) flag is `true` exactly when some primary-key (resp. unique)
constraint row targeting its table names the column — the flags are derived
by constraint attachment, never by the raw column rows, and columns named in
no such constraint keep the flag `false`. -/
theorem claim_C8_flags (excludeTables : List String) (rows : CatalogRows)
    (interfaces : List InterfaceDef) (t : PgTable) (c : PgColumn)
    (ht : t ∈ (extractSchemaRows excludeTables rows interfaces).tables)
    (hc : c ∈ t.columns) :
    (c.isPrimaryKey = true ↔ ∃ r ∈ rows.constraintRows, r.contype = "p" ∧
        rowKey r.schema r.table = rowKey t.schema t.name ∧ c.name ∈ r.columns) ∧
    (c.isUnique = true ↔ ∃ r ∈ rows.constraintRows, r.contype = "u" ∧
        rowKey r.schema r.table = rowKey t.schema t.name ∧ c.name ∈ r.columns) := by
  have htables : (extractSchemaRows excludeTables rows interfaces).tables =
      (rows.constraintRows.foldl processConstraintRow
        (attachColumns rows.columnRows
          (buildTablesMap
            (rows.tableRows.filter (fun row => !(excludeTables.contains row.table_name)))
            (buildTableMetaMap rows.tableMetaRows)), [])).1.map (fun e => e.2) := rfl
  rw [htables] at ht
  apply flags_after_constraints rows.constraintRows _ _ _ _ t c ht hc
  · rw [jsKeys_attachColumns]
    exact nodup_jsKeys_foldl_jsSet_val _ _ _ [] (by simp [jsKeys])
  · exact kc_attachColumns _ _ (kc_buildTablesMap _ _)
  · exact flags_attachColumns _ _
      (fun p hp c0 hc0 => by
        rw [cols_buildTablesMap _ _ p hp] at hc0
        cases hc0)

/-- Catalog rows with one table, one column `i` not declared as a key, and a
primary-key constraint row over `{"i"}`. -/
def c8Rows : CatalogRows := ⟨[⟨"s", "t"⟩], [], [c2ColRow], [c2PkRow], [], [], [], []⟩

/-- The column `i` as it appears in the assembled snapshot: flagged as
primary key by constraint attachment. -/
def c8Col : PgColumn := ⟨"i", "text", true, none, true, false, false, none⟩

/-- The assembled table of `c8Rows`. -/
def c8Table : PgTable :=
  ⟨"t", "s", none, [c8Col], some ⟨"z_pk", ["i"]⟩, [], [], [], none⟩

/-- C8 (witness): the flag characterization applied to the concrete
snapshot assembled from `c8Rows`. -/
theorem claim_C8_witness :
    (c8Col.isPrimaryKey = true ↔ ∃ r ∈ c8Rows.constraintRows, r.contype = "p" ∧
        rowKey r.schema r.table = rowKey c8Table.schema c8Table.name ∧
        c8Col.name ∈ r.columns) ∧
    (c8Col.isUnique = true ↔ ∃ r ∈ c8Rows.constraintRows, r.contype = "u" ∧
        rowKey r.schema r.table = rowKey c8Table.schema c8Table.name ∧
        c8Col.name ∈ r.columns) :=
  claim_C8_flags [] c8Rows [] c8Table c8Col (by decide) (by decide)

/-- C2 (witness): the rule applied to a primary-key match and to a concrete
foreign-key constraint row. -/
theorem claim_C2_witness :
    classifyRelationship ["i"] [] ["i"] = RelType.one_to_one ∧
    (processConstraintRow ([("s.t", c2Table0)], []) c2FkRow).2 = [] ++
      [⟨c2Table0.name ++ "_" ++ c2FkRow.ref_table,
        classifyRelationship c2FkRow.columns c2Table0.uniques
          (normalizeColumns (c2Table0.primaryKey.map (fun pk => pk.columns))),
        ⟨c2Table0.name, c2Table0.schema, c2FkRow.columns⟩,
        ⟨c2FkRow.ref_table, c2FkRow.ref_schema, c2FkRow.ref_columns⟩,
        c2FkRow.conname⟩] :=
  ⟨(claim_C2_relationship_rule.1 ["i"] ["i"] []).2.1 rfl,
   claim_C2_relationship_rule.2 ([("s.t", c2Table0)], []) c2FkRow c2Table0
     (by decide) (by decide)⟩

/-!
Section: Archive interface scanner (`backend/src/scan.ts`)

`extractInterfacesFromSource` runs two global regexes over the file text:
`/(?:export\s+)?interface\s+([A-Za-z0-9_]+)\s*{([\s\S]*?)}/g` and
`/(?:export\s+)?type\s+([A-Za-z0-9_]+)\s*=\s*{([\s\S]*?)}\s*;/g`,
pushing all interface matches and then all type-alias matches.  The
embedding implements the two patterns directly: `matchAll` scans left to
right, the non-greedy body stops at the first closing brace that lets the
rest of the pattern match, and the scan resumes at the end of each match
(advancing at least one character).  The zip container itself is decoded by
an external library; its entry list (path, directory flag, text) is the
input of the embedding.
-/

/-- JS `\s` (whitespace class), covering the ASCII and Unicode space
characters the regexes can meet. -/
def jsWsChar (c : Char) : Bool :=
  c = ' ' || c = '\t' || c = '\n' || c = '\r' ||
  c = Char.ofNat 11 || c = Char.ofNat 12 ||
  c = Char.ofNat 0xa0 || c = Char.ofNat 0x1680 ||
  (0x2000 ≤ c.toNat && c.toNat ≤ 0x200a) ||
  c = Char.ofNat 0x2028 || c = Char.ofNat 0x2029 || c = Char.ofNat 0x202f ||
  c = Char.ofNat 0x205f || c = Char.ofNat 0x3000 || c = Char.ofNat 0xfeff

/-- The character class `[A-Za-z0-9_]` (also JS `\w` for `\b` boundaries). -/
def wordChar (c : Char) : Bool := c.isAlpha || c.isDigit || c = '_'

/-- Consume an exact literal, returning the rest. -/
def stripLit : List Char → List Char → Option (List Char)
  | [], s => some s
  | _ :: _, [] => none
  | c :: cs, d :: ds => if d = c then stripLit cs ds else none

/-- Consume maximal whitespace (`\s*` / `\s+`), returning its length. -/
def takeWs : List Char → Nat × List Char
  | [] => (0, [])
  | c :: cs =>
    if jsWsChar c then
      let r := takeWs cs
      (r.1 + 1, r.2)
    else (0, c :: cs)

/-- Consume a maximal run of word characters (`[A-Za-z0-9_]+`, greedy). -/
def takeWord : List Char → List Char × List Char
  | [] => ([], [])
  | c :: cs =>
    if wordChar c then
      let r := takeWord cs
      (c :: r.1, r.2)
    else ([], c :: cs)

/-- `([\s\S]*?)}` with nothing after: the body up to the first closing
brace, and the number of characters consumed including the brace. -/
def braceScan : List Char → Option (List Char × Nat)
  | [] => none
  | c :: cs =>
    if c = '}' then some ([], 1)
    else (braceScan cs).map (fun r => (c :: r.1, r.2 + 1))

/-- `([\s\S]*?)}\s*;`: the non-greedy body tries each successive closing
brace until one is followed by `\s*;`; consumed length includes the final
semicolon. -/
def typeTailScan : List Char → Option (List Char × Nat)
  | [] => none
  | c :: cs =>
    if c = '}' then
      let ws := takeWs cs
      match ws.2 with
      | ';' :: _ => some ([], 1 + ws.1 + 1)
      | _ => (typeTailScan cs).map (fun r => (c :: r.1, r.2 + 1))
    else (typeTailScan cs).map (fun r => (c :: r.1, r.2 + 1))

/-- The optional `(?:export\s+)?` group: literal `export` followed by at
least one whitespace character. -/
def tryExportKw (s : List Char) : Option (Nat × List Char) :=
  match stripLit "export".toList s with
  | none => none
  | some s1 =>
    let ws := takeWs s1
    if ws.1 = 0 then none else some (6 + ws.1, ws.2)

/-- `interface\s+([A-Za-z0-9_]+)\s*{([\s\S]*?)}` at the start of `s`:
name, body, and consumed length. -/
def tryInterfaceBody (s : List Char) : Option (String × String × Nat) :=
  match stripLit "interface".toList s with
  | none => none
  | some s1 =>
    let ws := takeWs s1
    if ws.1 = 0 then none
    else
      let w := takeWord ws.2
      if w.1.isEmpty then none
      else
        let ws2 := takeWs w.2
        match ws2.2 with
        | '{' :: s5 =>
          match braceScan s5 with
          | none => none
          | some (body, blen) =>
            some (String.mk w.1, String.mk body, 9 + ws.1 + w.1.length + ws2.1 + 1 + blen)
        | _ => none

/-- `type\s+([A-Za-z0-9_]+)\s*=\s*{([\s\S]*?)}\s*;` at the start of
`s`. -/
def tryTypeBody (s : List Char) : Option (String × String × Nat) :=
  match stripLit "type".toList s with
  | none => none
  | some s1 =>
    let ws := takeWs s1
    if ws.1 = 0 then none
    else
      let w := takeWord ws.2
      if w.1.isEmpty then none
      else
        let ws2 := takeWs w.2
        match ws2.2 with
        | '=' :: s5 =>
          let ws3 := takeWs s5
          match ws3.2 with
          | '{' :: s7 =>
            match typeTailScan s7 with
            | none => none
            | some (body, blen) =>
              some (String.mk w.1, String.mk body,
                4 + ws.1 + w.1.length + ws2.1 + 1 + ws3.1 + 1 + blen)
          | _ => none
        | _ => none

/-- One attempt of the interface regex at a position: the optional `export`
lead is tried first (the fallback mirrors the regex engine dropping the
optional group, though it cannot succeed when `export` was consumed). -/
def tryInterfaceAt (s : List Char) : Option (String × String × Nat) :=
  match tryExportKw s with
  | some (k, r) =>
    match tryInterfaceBody r with
    | some (n, b, len) => some (n, b, k + len)
    | none => tryInterfaceBody s
  | none => tryInterfaceBody s

/-- One attempt of the type-alias regex at a position. -/
def tryTypeAt (s : List Char) : Option (String × String × Nat) :=
  match tryExportKw s with
  | some (k, r) =>
    match tryTypeBody r with
    | some (n, b, len) => some (n, b, k + len)
    | none => tryTypeBody s
  | none => tryTypeBody s

/-- `source.matchAll(regex)`: scan left to right from the current position;
on a match emit `(startIndex, name, body)` and resume at the match end
(advancing at least one character, as the `exec` loop does); otherwise try
the next position.  Fuel is the remaining string length. -/
def scanAll (tryM : List Char → Option (String × String × Nat)) :
    Nat → List Char → Nat → List (Nat × String × String)
  | 0, _, _ => []
  | _ + 1, [], _ => []
  | fuel + 1, c :: cs, pos =>
    match tryM (c :: cs) with
    | some (n, b, len) =>
      (pos, n, b) :: scanAll tryM fuel (List.drop (max len 1) (c :: cs)) (pos + max len 1)
    | none => scanAll tryM fuel cs (pos + 1)

/-- `lineNumberAt` of scan.ts: 1 + the number of newlines before the
match's start offset. -/
def lineNumberAt (cs : List Char) (i : Nat) : Nat :=
  ((cs.take i).filter (fun c => c = '\n')).length + 1

/-- `block.split(/[\n;]/)`. -/
def splitNlSemi : List Char → List (List Char)
  | [] => [[]]
  | c :: rest =>
    if c = '\n' || c = ';' then [] :: splitNlSemi rest
    else
      match splitNlSemi rest with
      | [] => [[c]]
      | l :: ls => (c :: l) :: ls

/-- JS `String.prototype.trim` on a character list. -/
def jsTrim (l : List Char) : List Char :=
  ((l.dropWhile jsWsChar).reverse.dropWhile jsWsChar).reverse

/-- Word-boundary test used below: does the pattern match here with an OK
following boundary? -/
def matchHere (pat s : List Char) : Bool :=
  match stripLit pat s with
  | some [] => true
  | some (c :: _) => !wordChar c
  | none => false

/-- Scan for a whole-word occurrence, tracking the previous character for
the leading `\b` boundary. -/
def hasWordAux (pat : List Char) : Option Char → List Char → Bool
  | prev, [] => (prev.all (fun c => !wordChar c)) && matchHere pat []
  | prev, c :: cs =>
    ((prev.all (fun c => !wordChar c)) && matchHere pat (c :: cs)) ||
      hasWordAux pat (some c) cs

/-- `/\bWORD\b/.test(s)`. -/
def hasWordIn (pat : String) (s : List Char) : Bool :=
  hasWordAux pat.toList none s

/-- One line of a field block against
`/^([A-Za-z0-9_]+)(\?)?\s*:\s*([^;]+)$/` (the line holds no `;` after the
split), yielding a Field (extractFields of scan.ts, lines 18-27). -/
def parseFieldLine (line : List Char) : Option IfField :=
  let w := takeWord line
  if w.1.isEmpty then none
  else
    let rest1 := w.2
    let opt := match rest1 with
      | '?' :: _ => true
      | _ => false
    let rest2 := match rest1 with
      | '?' :: t => t
      | _ => rest1
    let ws := takeWs rest2
    match ws.2 with
    | ':' :: r4 =>
      let ws2 := takeWs r4
      if ws2.2.isEmpty then none
      else
        let rawType := jsTrim ws2.2
        some ⟨String.mk w.1, String.mk rawType,
          opt || hasWordIn "null" rawType || hasWordIn "undefined" rawType⟩
    | _ => none

/-- `extractFields` of scan.ts: split the block on newlines and semicolons,
trim, drop empties, and keep the lines matching the field shape. -/
def extractFields (block : String) : List IfField :=
  (((splitNlSemi block.toList).map jsTrim).filter (fun l => !l.isEmpty)).filterMap
    parseFieldLine

/-- Build the `InterfaceDef` pushed for one regex match. -/
def mkScannedDef (cs : List Char) (relativePath : String)
    (m : Nat × String × String) : InterfaceDef :=
  ⟨m.2.1, relativePath ++ ":" ++ toString (lineNumberAt cs m.1),
    extractFields m.2.2, none⟩

/-- `extractInterfacesFromSource` of scan.ts: all interface-keyword matches
(pushed first), then all type-alias matches. -/
def extractInterfacesFromSource (source relativePath : String) : List InterfaceDef :=
  let cs := source.toList
  (scanAll tryInterfaceAt cs.length cs 0).map (mkScannedDef cs relativePath) ++
    (scanAll tryTypeAt cs.length cs 0).map (mkScannedDef cs relativePath)

/-- An entry of the uploaded archive, as delivered by the (external) zip
decoder: entry path, directory flag, and decoded text. -/
structure ZipEntry where
  entryName : String
  isDirectory : Bool
  data : String
deriving DecidableEq, Repr

/-- `entry.entryName.replace(/\\/g, "/")`. -/
def normalizeEntryPath (p : String) : String :=
  String.mk (p.toList.map (fun c => if c = '\\' then '/' else c))

/-- The suffix of a basename starting at its last dot (ignoring a dot at
index 0), if any. -/
def tailFromLastDot : List Char → Option (List Char)
  | [] => none
  | c :: cs =>
    match tailFromLastDot cs with
    | some r => some r
    | none => if c = '.' then some (c :: cs) else none

/-- Node `path.extname` on a slash-separated path. -/
def extname (p : String) : String :=
  let base := ((p.toList.reverse.takeWhile (fun c => c ≠ '/')).reverse)
  match base with
  | [] => ""
  | _ :: rest =>
    match tailFromLastDot rest with
    | some r => String.mk r
    | none => ""

/-- `isTsFile` of scan.ts. -/
def isTsFile (filePath : String) : Bool :=
  jsToLower (extname filePath) = ".ts" || jsToLower (extname filePath) = ".tsx"

/-- `scanInterfacesFromZip` of scan.ts: skip directories and non-TS files,
concatenate per-file extractions in entry order. -/
def scanInterfacesFromZip (entries : List ZipEntry) : List InterfaceDef :=
  match entries with
  | [] => []
  | e :: rest =>
    if e.isDirectory then scanInterfacesFromZip rest
    else
      let entryPath := normalizeEntryPath e.entryName
      if isTsFile entryPath then
        extractInterfacesFromSource e.data entryPath ++ scanInterfacesFromZip rest
      else scanInterfacesFromZip rest

theorem scanAll_le (tryM : List Char → Option (String × String × Nat)) :
    ∀ (fuel : Nat) (s : List Char) (pos : Nat),
      ∀ x ∈ scanAll tryM fuel s pos, pos ≤ x.1 := by
  intro fuel
  induction fuel with
  | zero =>
    intro s pos x hx
    simp [scanAll] at hx
  | succ fuel ih =>
    intro s pos x hx
    match s with
    | [] => simp [scanAll] at hx
    | c :: cs =>
      match htm : tryM (c :: cs) with
      | some (n, b, len) =>
        simp only [scanAll, htm] at hx
        rcases List.mem_cons.mp hx with h | h
        · rw [h]
        · have := ih _ _ x h
          omega
      | none =>
        simp only [scanAll, htm] at hx
        have := ih _ _ x hx
        omega

theorem scanAll_pairwise (tryM : List Char → Option (String × String × Nat)) :
    ∀ (fuel : Nat) (s : List Char) (pos : Nat),
      (scanAll tryM fuel s pos).Pairwise (fun a b => a.1 < b.1) := by
  intro fuel
  induction fuel with
  | zero =>
    intro s pos
    simp [scanAll]
  | succ fuel ih =>
    intro s pos
    match s with
    | [] => simp [scanAll]
    | c :: cs =>
      match htm : tryM (c :: cs) with
      | some (n, b, len) =>
        simp only [scanAll, htm]
        refine List.Pairwise.cons ?_ (ih _ _)
        intro y hy
        have h1 := scanAll_le tryM fuel _ _ y hy
        have h2 : 1 ≤ max len 1 := le_max_right _ _
        show pos < y.1
        omega
      | none =>
        simp only [scanAll, htm]
        exact ih _ _

theorem scanInterfacesFromZip_eq (entries : List ZipEntry) :
    scanInterfacesFromZip entries =
      ((entries.filter (fun e => !e.isDirectory &&
          isTsFile (normalizeEntryPath e.entryName))).map
        (fun e => extractInterfacesFromSource e.data (normalizeEntryPath e.entryName))).flatten := by
  induction entries with
  | nil => rfl
  | cons e rest ih =>
    by_cases hd : e.isDirectory = true
    · simp [scanInterfacesFromZip, hd, List.filter_cons, ih]
    · by_cases hts : isTsFile (normalizeEntryPath e.entryName) = true
      · simp [scanInterfacesFromZip, hd, hts, List.filter_cons, ih]
      · simp [scanInterfacesFromZip, hd, hts, List.filter_cons, ih]

/-- A file in which a type-alias declaration textually precedes an
interface declaration. -/
def c9Entry : ZipEntry :=
  ⟨"a.ts", false, "type A = { x: string };\ninterface B { y: string }"⟩

/-- C9 (counterexample): for a file whose `type A` (line 1) precedes
`interface B` (line 2), the scanner output lists `B` before `A` — the
within-file output order is not source-declaration order. -/
theorem claim_C9_counterexample :
    (scanInterfacesFromZip [c9Entry]).map (fun d => (d.name, d.source)) =
      [("B", "a.ts:2"), ("A", "a.ts:1")] := by decide

/-- C9 (amended): the scanner returns a flat list in file encounter order;
within each file, all interface-keyword declarations come first, in
strictly increasing source position, followed by all type-alias
declarations, in strictly increasing source position. -/
theorem claim_C9_scan_order (entries : List ZipEntry) (source relativePath : String) :
    scanInterfacesFromZip entries =
      ((entries.filter (fun e => !e.isDirectory &&
          isTsFile (normalizeEntryPath e.entryName))).map
        (fun e => extractInterfacesFromSource e.data (normalizeEntryPath e.entryName))).flatten ∧
    extractInterfacesFromSource source relativePath =
      (scanAll tryInterfaceAt source.toList.length source.toList 0).map
        (mkScannedDef source.toList relativePath) ++
      (scanAll tryTypeAt source.toList.length source.toList 0).map
        (mkScannedDef source.toList relativePath) ∧
    (scanAll tryInterfaceAt source.toList.length source.toList 0).Pairwise
      (fun a b => a.1 < b.1) ∧
    (scanAll tryTypeAt source.toList.length source.toList 0).Pairwise
      (fun a b => a.1 < b.1) :=
  ⟨scanInterfacesFromZip_eq entries, rfl,
   scanAll_pairwise _ _ _ _, scanAll_pairwise _ _ _ _⟩

end SchemaExtractor
